import Mathlib

/-!
Shallow embedding of the PRK serial particle-in-cell kernel
(src/SERIAL/PIC/pic.c) and proofs of properties of its operations.

C doubles are modelled as real numbers, C int64 values as the
unbounded integers (the kernel validates them small, and no claim
touches overflow).  The C library functions used by the kernel are
modelled explicitly: fmod with the truncated-division remainder it
computes (cFmod below), floor by the integer floor, and a cast of a
non-negative double to int64 by truncation toward zero (cTrunc).
The charge grid is an array of doubles in column-major order, so it
is a list of reals addressed through the QG macro.  The LCG random
stream from lcg.h is not part of the sources; initializers take the
stream of its successive values as a function argument, which is
enough because no verified property depends on the sampled values.
-/

/-- C macro: mass_inv = 1.0. -/
def mass_inv : ℝ := 1.0

/-- C macro: Q = 1.0 (named Qcharge here, Q collides with a metaprogramming quotation in Lean). -/
def Qcharge : ℝ := 1.0

/-- C macro: epsilon = 0.000001, the verification tolerance of pic.c. -/
def epsilon : ℝ := 0.000001

/-- C macro: dt = 1.0. -/
def dt : ℝ := 1.0

/-- C macro: SUCCESS 1. -/
def SUCCESS : ℤ := 1

/-- C macro: FAILURE 0. -/
def FAILURE : ℤ := 0

/-- C stdlib EXIT_FAILURE, the nonzero exit status used on allocation
failure and in the LINEAR argument-count check. -/
def EXIT_FAILURE : ℤ := 1

/-- C macro: REL_X 0.5. -/
def REL_X : ℝ := 0.5

/-- C macro: REL_Y 0.5. -/
def REL_Y : ℝ := 0.5

/-- Truncation toward zero: the value of a C cast of a double to int64. -/
noncomputable def cTrunc (x : ℝ) : ℤ := if 0 ≤ x then ⌊x⌋ else ⌈x⌉

/-- C fmod: x - trunc(x/y)*y, the remainder with the sign of x. -/
noncomputable def cFmod (x y : ℝ) : ℝ := x - y * ((cTrunc (x / y) : ℤ) : ℝ)

/-- bbox_t from pic.c. -/
structure bbox_t where
  xleft : ℤ
  xright : ℤ
  ybottom : ℤ
  ytop : ℤ

/-- particle_t from pic.c. -/
@[ext]
structure particle_t where
  x : ℝ
  y : ℝ
  v_x : ℝ
  v_y : ℝ
  q : ℝ
  x0 : ℝ
  y0 : ℝ
  k : ℤ
  m : ℤ
  initTimestamp : ℤ

/-- A freshly written particle slot: the initializers and
inject_particles store only the position; the remaining fields hold
unspecified memory that finish_distribution overwrites before any
use, modelled as zero. -/
def rawParticle (x y : ℝ) : particle_t :=
  ⟨x, y, 0, 0, 0, 0, 0, 0, 0, 0⟩

/-- The QG macro of pic.c: QG(i,j) = Qgrid[(j)*(g)+i] (column-major). -/
def QG (Qgrid : List ℝ) (g i j : ℤ) : ℝ :=
  Qgrid.getD (j * g + i).toNat 0

/-- initializeGrid of pic.c: for each column x and row y the slot
QG(y,x) = Qgrid[x*g+y] receives +Q when x is even and -Q when x is
odd; the writes are consecutive, so the array is the concatenation of
the per-column blocks. -/
noncomputable def initializeGrid (g : ℤ) : List ℝ :=
  (List.range g.toNat).flatMap fun x =>
    (List.range g.toNat).map fun _y =>
      if (x : ℤ) % 2 = 0 then Qcharge else -Qcharge

/-- computeCoulomb of pic.c: fx = (q1*q2/r2)*x_dist/r and
fy = (q1*q2/r2)*y_dist/r with r2 = x_dist^2+y_dist^2, r = sqrt r2. -/
noncomputable def computeCoulomb (x_dist y_dist q1 q2 : ℝ) : ℝ × ℝ :=
  (q1 * q2 / (x_dist * x_dist + y_dist * y_dist) * x_dist /
     Real.sqrt (x_dist * x_dist + y_dist * y_dist),
   q1 * q2 / (x_dist * x_dist + y_dist * y_dist) * y_dist /
     Real.sqrt (x_dist * x_dist + y_dist * y_dist))

/-- computeTotalForce of pic.c: sum of the four corner Coulomb
contributions with the sign pattern of the source. -/
noncomputable def computeTotalForce (p : particle_t) (g : ℤ) (Qgrid : List ℝ) : ℝ × ℝ :=
  let y : ℤ := ⌊p.y⌋
  let x : ℤ := ⌊p.x⌋
  let rel_x : ℝ := p.x - (x : ℝ)
  let rel_y : ℝ := p.y - (y : ℝ)
  let f1 := computeCoulomb rel_x rel_y p.q (QG Qgrid g y x)
  let f2 := computeCoulomb rel_x (1 - rel_y) p.q (QG Qgrid g (y + 1) x)
  let f3 := computeCoulomb (1 - rel_x) rel_y p.q (QG Qgrid g y (x + 1))
  let f4 := computeCoulomb (1 - rel_x) (1 - rel_y) p.q (QG Qgrid g (y + 1) (x + 1))
  (f1.1 + f2.1 - f3.1 - f4.1, f1.2 - f2.2 + f3.2 - f4.2)

/-- moveParticle of pic.c: positions wrap through fmod(· + L, L), then
velocities are updated. -/
noncomputable def moveParticle (p : particle_t) (ax ay L : ℝ) : particle_t :=
  { p with
    x := cFmod (p.x + p.v_x * dt + 0.5 * ax * dt * dt + L) L
    y := cFmod (p.y + p.v_y * dt + 0.5 * ay * dt * dt + L) L
    v_x := p.v_x + ax * dt
    v_y := p.v_y + ay * dt }

/-- The body of the finish_distribution loop of pic.c applied to one
particle. -/
noncomputable def finishOne (timestep k m : ℤ) (p : particle_t) : particle_t :=
  let x_coord := p.x
  let y_coord := p.y
  let rel_x := cFmod x_coord 1
  let rel_y := cFmod y_coord 1
  let x : ℤ := cTrunc x_coord
  let r1_sq := rel_y * rel_y + rel_x * rel_x
  let r2_sq := rel_y * rel_y + (1 - rel_x) * (1 - rel_x)
  let cos_theta := rel_x / Real.sqrt r1_sq
  let cos_phi := (1 - rel_x) / Real.sqrt r2_sq
  let charge := 1 / ((dt * dt) * Qcharge * (cos_theta / r1_sq + cos_phi / r2_sq))
  { p with
    v_x := 0
    v_y := (m : ℝ) / dt
    q := if x.tmod 2 = 0 then ((2 * k + 1 : ℤ) : ℝ) * charge
         else (-1) * ((2 * k + 1 : ℤ) : ℝ) * charge
    x0 := x_coord
    y0 := y_coord
    k := k
    m := m
    initTimestamp := timestep }

/-- finish_distribution of pic.c over the processed slice. -/
noncomputable def finish_distribution (timestep k m : ℤ) (particles : List particle_t) :
    List particle_t :=
  particles.map (finishOne timestep k m)

/-- The two periodically wrapped analytic targets (x_periodic,
y_periodic) computed by verifyParticle of pic.c. -/
noncomputable def verifyTargets (p : particle_t) (current_timestep : ℤ)
    (Qgrid : List ℝ) (g : ℤ) : ℝ × ℝ :=
  let total_steps : ℤ := current_timestep - p.initTimestamp
  let L : ℝ := ((g - 1 : ℤ) : ℝ)
  let y : ℤ := ⌊p.y0⌋
  let x : ℤ := ⌊p.x0⌋
  let x_T : ℝ :=
    if 0 < p.q * QG Qgrid g y x then p.x0 + ((total_steps * (2 * p.k + 1) : ℤ) : ℝ)
    else p.x0 - ((total_steps * (2 * p.k + 1) : ℤ) : ℝ)
  let y_T : ℝ := p.y0 + ((p.m * total_steps : ℤ) : ℝ)
  (cFmod (x_T + ((total_steps * (2 * p.k + 1) : ℤ) : ℝ) * L) L,
   cFmod (y_T + (total_steps : ℝ) * |(p.m : ℝ)| * L) L)

/-- verifyParticle of pic.c: FAILURE when either coordinate misses its
periodic target by more than epsilon, SUCCESS otherwise. -/
noncomputable def verifyParticle (p : particle_t) (current_timestep : ℤ)
    (Qgrid : List ℝ) (g : ℤ) : ℤ :=
  if epsilon < |p.x - (verifyTargets p current_timestep Qgrid g).1| ∨
     epsilon < |p.y - (verifyTargets p current_timestep Qgrid g).2| then FAILURE
  else SUCCESS

/-- The membership test of remove_particles: strict inequalities
against the patch converted to doubles. -/
def inPatch (patch : bbox_t) (p : particle_t) : Prop :=
  (patch.xleft : ℝ) < p.x ∧ p.x < (patch.xright : ℝ) ∧
  (patch.ybottom : ℝ) < p.y ∧ p.y < (patch.ytop : ℝ)

/-- The membership test is a comparison of doubles; it is decidable
classically (the reals of the embedding carry no algorithmic order). -/
noncomputable instance inPatchDec (patch : bbox_t) (p : particle_t) :
    Decidable (inPatch patch p) :=
  Classical.propDecidable _

/-- remove_particles of pic.c: one pass over the particles; a particle
strictly inside the patch is verified (the result multiplied into the
running flag) and dropped, every other particle is compacted to the
next free slot.  Returns the compacted prefix and the updated flag. -/
noncomputable def remove_particles (removal_timestep : ℤ) (patch : bbox_t)
    (particles : List particle_t) (pcFlag : ℤ) (Qgrid : List ℝ) (g : ℤ) :
    List particle_t × ℤ :=
  particles.foldl
    (fun acc p =>
      if inPatch patch p then
        (acc.1, acc.2 * verifyParticle p removal_timestep Qgrid g)
      else (acc.1 ++ [p], acc.2))
    ([], pcFlag)

/-- inject_particles of pic.c: the surviving array is copied and, for
y from ybottom to ytop-1, x from xleft to xright-1 and i below
particles_per_cell, a particle at (x+REL_X, y+REL_Y) is appended. -/
def inject_particles (injection_timestep : ℤ) (patch : bbox_t)
    (particles_per_cell : ℤ) (particles : List particle_t) : List particle_t :=
  particles ++
    ((List.range (patch.ytop - patch.ybottom).toNat).flatMap fun yi =>
      (List.range (patch.xright - patch.xleft).toNat).flatMap fun _xi =>
        List.replicate particles_per_cell.toNat
          (rawParticle (((patch.xleft + (_xi : ℤ)) : ℤ) + REL_X)
                       (((patch.ybottom + (yi : ℤ)) : ℤ) + REL_Y)))

/-- The injection step of main (pic.c lines 705-709): inject, then run
finish_distribution on the new slice with k = 0 and m = 0. -/
noncomputable def injectionStep (t : ℤ) (patch : bbox_t) (particles_per_cell : ℤ)
    (particles : List particle_t) : List particle_t :=
  let n_old := particles.length
  let grown := inject_particles t patch particles_per_cell particles
  grown.take n_old ++ finish_distribution t 0 0 (grown.drop n_old)

/-- The geometric-distribution normalization constant A of pic.c. -/
noncomputable def geometricA (n g : ℤ) (rho : ℝ) : ℝ :=
  (n : ℝ) * ((1 - rho) / (1 - rho ^ (g - 1).toNat))

/-- The column index of each particle placed by the per-column loops of
initializeParticlesGeometric: column x receives floor(A*rho^x) slots. -/
noncomputable def geometricColumnXs (n g : ℤ) (rho : ℝ) : List ℤ :=
  (List.range (g - 1).toNat).flatMap fun x =>
    List.replicate (⌊geometricA n g rho * rho ^ x⌋).toNat (x : ℤ)

/-- initializeParticlesGeometric of pic.c: the per-column particles in
order, each at x-offset REL_X with an LCG row sample, then the
shortfall loop filling column 0 up to n particles.  The LCG value
stream is passed in as the function lcg of the call index. -/
noncomputable def initializeParticlesGeometric (n g : ℤ) (rho : ℝ) (lcg : ℕ → ℝ) :
    List particle_t :=
  let cols := (geometricColumnXs n g rho).enum.map fun pr =>
    rawParticle ((pr.2 : ℝ) + REL_X) (lcg pr.1 + REL_Y)
  cols ++ (List.range (n.toNat - cols.length)).map fun i =>
    rawParticle REL_X (lcg (cols.length + i) + REL_Y)

/-- bad_patch of pic.c, returning its error codes 1, 2, 3 and 0. -/
def bad_patch (patch : bbox_t) (patch_contain : Option bbox_t) : ℤ :=
  if patch.xleft ≥ patch.xright ∨ patch.ybottom ≥ patch.ytop then 1
  else
    match patch_contain with
    | some c =>
      if patch.xleft < c.xleft ∨ patch.xright > c.xright then 2
      else if patch.ybottom < c.ybottom ∨ patch.ytop > c.ytop then 3
      else 0
    | none => 0

/-- The particle initialization mode selected by main. -/
inductive InitMode where
  | geometric : ℝ → InitMode
  | sinusoidal : InitMode
  | linear : ℝ → ℝ → InitMode
  | patchMode : bbox_t → InitMode

/-- The optional population-change clause of the command line. -/
inductive PopChange where
  | noChange : PopChange
  | injection : ℤ → ℤ → bbox_t → PopChange
  | removal : ℤ → bbox_t → PopChange

/-- The typed command line of pic.c: the argument count together with
the parsed values main reads from argv. -/
structure Args where
  argc : ℤ
  T : ℤ
  L : ℤ
  n : ℤ
  k : ℤ
  m : ℤ
  mode : InitMode
  pop : PopChange

/-- Number of argv entries consumed once the mode parameters are read,
the value of args_used at that point in main. -/
def modeArgsUsed : InitMode → ℤ
  | .geometric _ => 8
  | .sinusoidal => 7
  | .linear _ _ => 9
  | .patchMode _ => 11

/-- The early-exit behaviour of the validation section of main: the
exit status of the first failing check (note exit(FAILURE) is
exit(0) and the argc < 6 usage path is exit(SUCCESS) = exit(1)),
or none when validation passes and the simulation is reached. -/
def configExit (a : Args) : Option ℤ :=
  if a.argc < 6 then some SUCCESS
  else if a.T < 1 then some FAILURE
  else if a.L < 1 ∨ a.L.tmod 2 ≠ 0 then some FAILURE
  else if a.n < 1 then some FAILURE
  else if a.k < 0 then some FAILURE
  else
    let g := a.L + 1
    let grid_patch : bbox_t := ⟨0, g, 0, g⟩
    let modeCheck : Option ℤ :=
      match a.mode with
      | .geometric _ => if a.argc < 8 then some FAILURE else none
      | .sinusoidal => none
      | .linear _ _ => if a.argc < 9 then some EXIT_FAILURE else none
      | .patchMode ip =>
        if a.argc < 11 then some FAILURE
        else if bad_patch ip none ≠ 0 then some FAILURE
        else none
    match modeCheck with
    | some e => some e
    | none =>
      match a.pop with
      | .noChange => none
      | .injection ppc ts ip =>
        if a.argc < modeArgsUsed a.mode + 7 then some FAILURE
        else if ppc < 0 then some FAILURE
        else if ts < 0 then some FAILURE
        else if bad_patch ip (some grid_patch) ≠ 0 then some FAILURE
        else none
      | .removal _ rp =>
        if bad_patch rp (some grid_patch) ≠ 0 then some FAILURE
        else none

/-- One force-and-move update of the simulation loop of main:
acceleration is force times mass_inv, dt = 1. -/
noncomputable def simStep (g : ℤ) (Qgrid : List ℝ) (L : ℝ) (p : particle_t) : particle_t :=
  let f := computeTotalForce p g Qgrid
  moveParticle p (f.1 * mass_inv) (f.2 * mass_inv) L

/-- Repeated application of simStep: the kinematic state of a particle
after a number of loop iterations of main. -/
noncomputable def evolve (g : ℤ) (Qgrid : List ℝ) (L : ℝ) : ℕ → particle_t → particle_t
  | 0, p => p
  | j + 1, p => simStep g Qgrid L (evolve g Qgrid L j p)

/-- One time step t of the driver loop of main: the scheduled
injection or removal, then force-and-move for every live particle.
The state is the live particle list and the running correctness flag. -/
noncomputable def driverStep (a : Args) (Qgrid : List ℝ) (g : ℤ) (t : ℤ)
    (st : List particle_t × ℤ) : List particle_t × ℤ :=
  let st1 :=
    match a.pop with
    | .injection ppc ts ip => if t = ts then (injectionStep t ip ppc st.1, st.2) else st
    | .removal ts rp => if t = ts then remove_particles t rp st.1 st.2 Qgrid g else st
    | .noChange => st
  (st1.1.map (simStep g Qgrid ((a.L : ℤ) : ℝ)), st1.2)

/-- The simulation section of main after validation: the grid, the
finished initial distribution (the initializer output ps0 abstracts
the selected mode and the LCG stream), the loop for t = 0..T, and the
final verification pass; returns the final particles, the removal-time
flag and the overall correctness flag. -/
noncomputable def runSimulation (a : Args) (ps0 : List particle_t) :
    List particle_t × ℤ × ℤ :=
  let g := a.L + 1
  let Qgrid := initializeGrid g
  let ps1 := finish_distribution 0 a.k a.m ps0
  let final := (List.range (a.T.toNat + 1)).foldl
    (fun st t => driverStep a Qgrid g (t : ℤ) st) (ps1, 1)
  let correct := (final.1.map fun p => verifyParticle p (a.T + 1) Qgrid g).foldl
    (fun acc v => acc * v) final.2
  (final.1, final.2, correct)

/-- The process exit status of main: the early validation exit when a
check fails, otherwise the simulation runs and main returns 0
regardless of the computed correctness flags. -/
noncomputable def mainExit (a : Args) (ps0 : List particle_t) : ℤ :=
  match configExit a with
  | some e => e
  | none =>
    let _sim := runSimulation a ps0
    0

/-- Modelled from the spec: the verification predicate the spec states
for the Verifier, success within tolerance 1e-8 of the periodically
wrapped analytic targets (the code uses epsilon = 1e-6 instead). -/
noncomputable def specVerifySuccess (p : particle_t) (current_timestep : ℤ)
    (Qgrid : List ℝ) (g : ℤ) : Prop :=
  |p.x - (verifyTargets p current_timestep Qgrid g).1| ≤ 1e-8 ∧
  |p.y - (verifyTargets p current_timestep Qgrid g).2| ≤ 1e-8

/-- Modelled from the spec: the charge magnitude formula of section
4.3, 1/(dt^2*Q*(relx/r1^3 + (1-relx)/r2^3)) with r1, r2 the corner
distances of finish_distribution. -/
noncomputable def specChargeMagnitude (p : particle_t) : ℝ :=
  let rel_x := cFmod p.x 1
  let rel_y := cFmod p.y 1
  let r1 := Real.sqrt (rel_y * rel_y + rel_x * rel_x)
  let r2 := Real.sqrt (rel_y * rel_y + (1 - rel_x) * (1 - rel_x))
  1 / ((dt * dt) * Qcharge * (rel_x / r1 ^ 3 + (1 - rel_x) / r2 ^ 3))

/-- The column charge pattern written by initializeGrid. -/
noncomputable def colCharge (x : ℤ) : ℝ :=
  if x % 2 = 0 then Qcharge else -Qcharge

lemma cTrunc_of_nonneg {x : ℝ} (h : 0 ≤ x) : cTrunc x = ⌊x⌋ := if_pos h

lemma floor_int_add_of_Ico (c : ℤ) {f : ℝ} (h0 : 0 ≤ f) (h1 : f < 1) :
    ⌊(c : ℝ) + f⌋ = c := by
  rw [add_comm, Int.floor_add_int, Int.floor_eq_zero_iff.mpr ⟨h0, h1⟩, zero_add]

lemma cFmod_intCast_add (c L : ℤ) {f : ℝ} (hf0 : 0 ≤ f) (hf1 : f < 1)
    (hL : 0 < L) (hc : 0 ≤ (c : ℝ) + f) :
    cFmod ((c : ℝ) + f) (L : ℝ) = ((c % L : ℤ) : ℝ) + f := by
  have hLr : (0 : ℝ) < (L : ℝ) := by exact_mod_cast hL
  have harg : 0 ≤ ((c : ℝ) + f) / (L : ℝ) := div_nonneg hc hLr.le
  have hdm : (c : ℝ) = (L : ℝ) * ((c / L : ℤ) : ℝ) + ((c % L : ℤ) : ℝ) := by
    exact_mod_cast (Int.ediv_add_emod c L).symm
  have h0m : (0 : ℝ) ≤ ((c % L : ℤ) : ℝ) := by
    exact_mod_cast Int.emod_nonneg c hL.ne'
  have h1m : ((c % L : ℤ) : ℝ) ≤ (L : ℝ) - 1 := by
    have := Int.emod_lt_of_pos c hL
    have : c % L ≤ L - 1 := by omega
    exact_mod_cast this
  have hfloor : ⌊((c : ℝ) + f) / (L : ℝ)⌋ = c / L := by
    rw [Int.floor_eq_iff]
    constructor
    · rw [le_div_iff₀ hLr]
      nlinarith
    · rw [div_lt_iff₀ hLr]
      nlinarith
  unfold cFmod
  rw [cTrunc_of_nonneg harg, hfloor]
  nlinarith

lemma cFmod_of_Ico {x y : ℝ} (h0 : 0 ≤ x) (h1 : x < y) : cFmod x y = x := by
  have hy : 0 < y := lt_of_le_of_lt h0 h1
  have : ⌊x / y⌋ = 0 := by
    rw [Int.floor_eq_zero_iff]
    exact ⟨div_nonneg h0 hy.le, (div_lt_one hy).mpr h1⟩
  unfold cFmod
  rw [cTrunc_of_nonneg (div_nonneg h0 hy.le), this]
  push_cast
  ring

lemma cFmod_nonneg_lt {x y : ℝ} (h0 : 0 ≤ x) (hy : 0 < y) :
    0 ≤ cFmod x y ∧ cFmod x y < y := by
  have harg : 0 ≤ x / y := div_nonneg h0 hy.le
  have hkey : cFmod x y = y * Int.fract (x / y) := by
    unfold cFmod
    rw [cTrunc_of_nonneg harg, Int.fract]
    field_simp
  constructor
  · rw [hkey]
    exact mul_nonneg hy.le (Int.fract_nonneg _)
  · rw [hkey]
    calc y * Int.fract (x / y) < y * 1 :=
          (mul_lt_mul_left hy).mpr (Int.fract_lt_one _)
    _ = y := mul_one y

lemma colCharge_eq_one_or (a : ℤ) : colCharge a = 1 ∨ colCharge a = -1 := by
  unfold colCharge Qcharge
  rcases Int.emod_two_eq a with h | h <;> norm_num [h]

lemma colCharge_mul_self (a : ℤ) : colCharge a * colCharge a = 1 := by
  rcases colCharge_eq_one_or a with h | h <;> rw [h] <;> norm_num

lemma colCharge_add (a b : ℤ) :
    colCharge (a + b) = colCharge a * colCharge b := by
  unfold colCharge Qcharge
  rcases Int.emod_two_eq a with h | h <;> rcases Int.emod_two_eq b with h2 | h2
  · have hab : (a + b) % 2 = 0 := by omega
    norm_num [h, h2, hab]
  · have hab : (a + b) % 2 = 1 := by omega
    norm_num [h, h2, hab]
  · have hab : (a + b) % 2 = 1 := by omega
    norm_num [h, h2, hab]
  · have hab : (a + b) % 2 = 0 := by omega
    norm_num [h, h2, hab]

lemma colCharge_one : colCharge 1 = -1 := by
  unfold colCharge Qcharge
  norm_num

lemma colCharge_succ (a : ℤ) : colCharge (a + 1) = -colCharge a := by
  rw [colCharge_add, colCharge_one]
  ring

lemma colCharge_emod {L : ℤ} (a : ℤ) (h2 : 2 ∣ L) :
    colCharge (a % L) = colCharge a := by
  unfold colCharge
  rw [Int.emod_emod_of_dvd a h2]

lemma colCharge_mul_odd (j w : ℤ) (hw : w % 2 = 1) :
    colCharge (j * w) = colCharge j := by
  unfold colCharge
  rw [Int.mul_emod, hw, mul_one, Int.emod_emod_of_dvd j (dvd_refl 2)]

lemma getD_replicate_lt {α : Type} (x d : α) :
    ∀ (m b : ℕ), b < m → (List.replicate m x).getD b d = x := by
  intro m
  induction m with
  | zero => intro b hb; omega
  | succ mm ih =>
    intro b hb
    cases b with
    | zero => rfl
    | succ bb =>
      have : bb < mm := by omega
      simpa [List.replicate_succ] using ih bb this

lemma getD_flatMap_const {α : Type} (d : α) (v : ℕ → α) (m : ℕ) :
    ∀ (nn a b : ℕ), a < nn → b < m →
      (((List.range nn).flatMap fun x => (List.range m).map fun _y => v x).getD
        (a * m + b) d) = v a := by
  intro nn
  induction nn with
  | zero => intro a b ha hb; omega
  | succ nm ih =>
    intro a b ha hb
    rw [List.range_succ, List.flatMap_append]
    have hlen : ((List.range nm).flatMap fun x =>
        (List.range m).map fun _y => v x).length = nm * m := by
      rw [List.length_flatMap]
      have hmap : List.map (List.length ∘ fun x => (List.range m).map fun _y => v x)
          (List.range nm) = List.replicate nm m := by
        have : (List.length ∘ fun x => (List.range m).map fun _y => v x) =
            fun _x => m := by
          funext xx
          simp
        rw [this, List.map_const']
        simp
      rw [hmap, List.sum_replicate, smul_eq_mul]
    rcases Nat.lt_or_ge a nm with hlt | hge
    · have hidx : a * m + b < nm * m := by
        calc a * m + b < a * m + m := by omega
        _ = (a + 1) * m := by ring
        _ ≤ nm * m := Nat.mul_le_mul_right m hlt
      rw [List.getD_append _ _ _ _ (by omega)]
      exact ih a b hlt hb
    · have hae : a = nm := by omega
      subst hae
      rw [List.getD_append_right _ _ _ _ (by omega)]
      rw [hlen]
      have : a * m + b - a * m = b := by omega
      rw [this]
      simp only [List.flatMap_cons, List.flatMap_nil, List.append_nil]
      have hrep : ((List.range m).map fun _y => v a) = List.replicate m (v a) := by
        rw [List.map_const']
        simp
      rw [hrep]
      exact getD_replicate_lt (v a) d m b hb

lemma QG_initializeGrid {g i j : ℤ} (hg : 0 < g) (hi0 : 0 ≤ i) (hi : i < g)
    (hj0 : 0 ≤ j) (hj : j < g) :
    QG (initializeGrid g) g i j = colCharge j := by
  lift g to ℕ using hg.le with gn
  lift i to ℕ using hi0 with ib
  lift j to ℕ using hj0 with jb
  have hib : ib < gn := by exact_mod_cast hi
  have hjb : jb < gn := by exact_mod_cast hj
  unfold QG initializeGrid colCharge
  have hidx : (((jb : ℤ) * (gn : ℤ) + (ib : ℤ))).toNat = jb * gn + ib := by
    push_cast
    omega
  rw [hidx, Int.toNat_natCast]
  exact getD_flatMap_const 0 (fun x => if (x : ℤ) % 2 = 0 then Qcharge else -Qcharge)
    gn gn jb ib hjb hib

/-- The force-design denominator: with the particle at vertical cell
offset 1/2 and horizontal offset rx, both finish_distribution and the
corner sum of computeTotalForce reduce to this quantity. -/
noncomputable def cornerD (rx : ℝ) : ℝ :=
  rx / ((rx * rx + (1/2) * (1/2)) * Real.sqrt (rx * rx + (1/2) * (1/2))) +
  (1 - rx) / (((1 - rx) * (1 - rx) + (1/2) * (1/2)) *
    Real.sqrt ((1 - rx) * (1 - rx) + (1/2) * (1/2)))

lemma cornerD_pos {rx : ℝ} (h0 : 0 < rx) (h1 : rx < 1) : 0 < cornerD rx := by
  have hA : (0:ℝ) < rx * rx + (1/2) * (1/2) := by positivity
  have hB : (0:ℝ) < (1 - rx) * (1 - rx) + (1/2) * (1/2) := by nlinarith
  unfold cornerD
  have t1 : 0 < rx / ((rx * rx + (1/2) * (1/2)) * Real.sqrt (rx * rx + (1/2) * (1/2))) :=
    div_pos h0 (mul_pos hA (Real.sqrt_pos.mpr hA))
  have t2 : 0 < (1 - rx) / (((1 - rx) * (1 - rx) + (1/2) * (1/2)) *
      Real.sqrt ((1 - rx) * (1 - rx) + (1/2) * (1/2))) :=
    div_pos (by linarith) (mul_pos hB (Real.sqrt_pos.mpr hB))
  linarith

lemma computeTotalForce_design (g : ℤ) (Qgrid : List ℝ) (p : particle_t)
    (a b : ℤ) (rx : ℝ)
    (hx : p.x = (a : ℝ) + rx) (hy : p.y = (b : ℝ) + 1/2)
    (hrx0 : 0 < rx) (hrx1 : rx < 1)
    (hQ1 : QG Qgrid g b a = colCharge a)
    (hQ2 : QG Qgrid g (b + 1) a = colCharge a)
    (hQ3 : QG Qgrid g b (a + 1) = -colCharge a)
    (hQ4 : QG Qgrid g (b + 1) (a + 1) = -colCharge a) :
    computeTotalForce p g Qgrid = (2 * p.q * colCharge a * cornerD rx, 0) := by
  have hfx : ⌊p.x⌋ = a := by rw [hx]; exact floor_int_add_of_Ico a hrx0.le hrx1
  have hfy : ⌊p.y⌋ = b := by
    rw [hy]; exact floor_int_add_of_Ico b (by norm_num) (by norm_num)
  have hrelx : p.x - ((a : ℤ) : ℝ) = rx := by rw [hx]; ring
  have hrely : p.y - ((b : ℤ) : ℝ) = 1/2 := by rw [hy]; ring
  simp only [computeTotalForce, computeCoulomb, hfx, hfy, hQ1, hQ2, hQ3, hQ4]
  rw [hrelx, hrely]
  have h12 : (1 : ℝ) - 1/2 = 1/2 := by norm_num
  rw [h12]
  have hA : (0:ℝ) < rx * rx + (1/2) * (1/2) := by positivity
  have hB : (0:ℝ) < (1 - rx) * (1 - rx) + (1/2) * (1/2) := by nlinarith
  have hA2 : (rx * rx + (1/2) * (1/2)) ≠ 0 := hA.ne'
  have hB2 : ((1 - rx) * (1 - rx) + (1/2) * (1/2)) ≠ 0 := hB.ne'
  have hsA : Real.sqrt (rx * rx + (1/2) * (1/2)) ≠ 0 := (Real.sqrt_pos.mpr hA).ne'
  have hsB : Real.sqrt ((1 - rx) * (1 - rx) + (1/2) * (1/2)) ≠ 0 := (Real.sqrt_pos.mpr hB).ne'
  rw [Prod.mk.injEq]
  constructor
  · unfold cornerD
    field_simp
    ring
  · ring

/-- The exact state of a design particle after j force-and-move steps:
integer cell plus the preserved fractional offsets, an alternating
horizontal velocity, and unchanged provenance. -/
noncomputable def stateAt (t0 k m cx cy L : ℤ) (rx : ℝ) (j : ℕ) : particle_t :=
  { x := (((cx + (j : ℤ) * (2 * k + 1)) % L : ℤ) : ℝ) + rx
    y := (((cy + (j : ℤ) * m) % L : ℤ) : ℝ) + 1/2
    v_x := ((2 * k + 1 : ℤ) : ℝ) * (1 - colCharge (j : ℤ))
    v_y := (m : ℝ)
    q := colCharge cx * ((2 * k + 1 : ℤ) : ℝ) * (cornerD rx)⁻¹
    x0 := (cx : ℝ) + rx
    y0 := (cy : ℝ) + 1/2
    k := k
    m := m
    initTimestamp := t0 }

lemma cFmod_one_int_add (c : ℤ) {f : ℝ} (hf0 : 0 ≤ f) (hf1 : f < 1)
    (hc : 0 ≤ (c : ℝ) + f) : cFmod ((c : ℝ) + f) 1 = f := by
  have h := cFmod_intCast_add c 1 hf0 hf1 (by norm_num) hc
  simpa [Int.emod_one] using h

lemma finishOne_design (t0 k m cx cy : ℤ) (rx : ℝ)
    (hcx : 0 ≤ cx) (hcy : 0 ≤ cy) (hrx0 : 0 < rx) (hrx1 : rx < 1) :
    finishOne t0 k m (rawParticle ((cx : ℝ) + rx) ((cy : ℝ) + 1/2)) =
    { x := (cx : ℝ) + rx
      y := (cy : ℝ) + 1/2
      v_x := 0
      v_y := (m : ℝ)
      q := colCharge cx * ((2 * k + 1 : ℤ) : ℝ) * (cornerD rx)⁻¹
      x0 := (cx : ℝ) + rx
      y0 := (cy : ℝ) + 1/2
      k := k
      m := m
      initTimestamp := t0 } := by
  have hcxr : (0 : ℝ) ≤ (cx : ℝ) := by exact_mod_cast hcx
  have hcyr : (0 : ℝ) ≤ (cy : ℝ) := by exact_mod_cast hcy
  have hrelx : cFmod ((cx : ℝ) + rx) 1 = rx :=
    cFmod_one_int_add cx hrx0.le hrx1 (by linarith)
  have hrely : cFmod ((cy : ℝ) + 1/2) 1 = 1/2 :=
    cFmod_one_int_add cy (by norm_num) (by norm_num) (by linarith)
  have htr : cTrunc ((cx : ℝ) + rx) = cx := by
    rw [cTrunc_of_nonneg (by linarith)]
    exact floor_int_add_of_Ico cx hrx0.le hrx1
  have htm : cx.tmod 2 = cx % 2 := Int.tmod_eq_emod hcx (by norm_num)
  simp only [finishOne, rawParticle, hrelx, hrely, htr, htm]
  have hA : (0:ℝ) < rx * rx + (1/2) * (1/2) := by positivity
  have hB : (0:ℝ) < (1 - rx) * (1 - rx) + (1/2) * (1/2) := by nlinarith
  have hAcomm : (1/2 : ℝ) * (1/2) + rx * rx = rx * rx + (1/2) * (1/2) := by ring
  have hBcomm : (1/2 : ℝ) * (1/2) + (1 - rx) * (1 - rx) =
      (1 - rx) * (1 - rx) + (1/2) * (1/2) := by ring
  rw [hAcomm, hBcomm]
  have hA2 : (rx * rx + (1/2) * (1/2)) ≠ 0 := hA.ne'
  have hB2 : ((1 - rx) * (1 - rx) + (1/2) * (1/2)) ≠ 0 := hB.ne'
  have hsA : Real.sqrt (rx * rx + (1/2) * (1/2)) ≠ 0 := (Real.sqrt_pos.mpr hA).ne'
  have hsB : Real.sqrt ((1 - rx) * (1 - rx) + (1/2) * (1/2)) ≠ 0 := (Real.sqrt_pos.mpr hB).ne'
  have hch : 1 / ((dt * dt) * Qcharge *
      (rx / Real.sqrt (rx * rx + (1/2) * (1/2)) / (rx * rx + (1/2) * (1/2)) +
       (1 - rx) / Real.sqrt ((1 - rx) * (1 - rx) + (1/2) * (1/2)) /
         ((1 - rx) * (1 - rx) + (1/2) * (1/2)))) = (cornerD rx)⁻¹ := by
    unfold cornerD dt Qcharge
    rw [one_div]
    congr 1
    field_simp
    ring
  rw [hch]
  refine particle_t.ext rfl rfl rfl ?_ ?_ rfl rfl rfl rfl rfl
  · unfold dt
    norm_num
  · rcases Int.emod_two_eq cx with h | h
    · rw [if_pos h]
      have : colCharge cx = 1 := by
        unfold colCharge Qcharge
        rw [if_pos h]
        norm_num
      rw [this]
      ring
    · rw [if_neg (by omega)]
      have : colCharge cx = -1 := by
        unfold colCharge Qcharge
        rw [if_neg (by omega)]
        norm_num
      rw [this]

lemma emod_add_shift (L X c2 : ℤ) : (X % L + c2 + L) % L = (X + c2) % L := by
  have h1 : X % L + c2 + L = (X + c2) + L * (1 - X / L) := by
    rw [Int.emod_def]
    ring
  rw [h1, Int.add_mul_emod_self_left]

lemma simStep_design (L cx cy k m t0 : ℤ) (rx : ℝ)
    (hL : 2 ≤ L) (hL2 : L % 2 = 0)
    (hcx0 : 0 ≤ cx) (hcy0 : 0 ≤ cy)
    (hrx0 : 0 < rx) (hrx1 : rx < 1) (hk : 0 ≤ k) (hm : -L ≤ m) (j : ℕ) :
    simStep (L + 1) (initializeGrid (L + 1)) ((L : ℤ) : ℝ)
      (stateAt t0 k m cx cy L rx j) = stateAt t0 k m cx cy L rx (j + 1) := by
  have hLpos : (0:ℤ) < L := by omega
  have hgpos : (0:ℤ) < L + 1 := by omega
  have hdvd : (2:ℤ) ∣ L := Int.dvd_of_emod_eq_zero hL2
  have haj0 : 0 ≤ (cx + (j:ℤ) * (2*k+1)) % L := Int.emod_nonneg _ hLpos.ne'
  have hajL : (cx + (j:ℤ) * (2*k+1)) % L < L := Int.emod_lt_of_pos _ hLpos
  have hbj0 : 0 ≤ (cy + (j:ℤ) * m) % L := Int.emod_nonneg _ hLpos.ne'
  have hbjL : (cy + (j:ℤ) * m) % L < L := Int.emod_lt_of_pos _ hLpos
  have hQ1 : QG (initializeGrid (L+1)) (L+1) ((cy + (j:ℤ) * m) % L)
      ((cx + (j:ℤ) * (2*k+1)) % L) = colCharge ((cx + (j:ℤ) * (2*k+1)) % L) :=
    QG_initializeGrid hgpos hbj0 (by omega) haj0 (by omega)
  have hQ2 : QG (initializeGrid (L+1)) (L+1) ((cy + (j:ℤ) * m) % L + 1)
      ((cx + (j:ℤ) * (2*k+1)) % L) = colCharge ((cx + (j:ℤ) * (2*k+1)) % L) :=
    QG_initializeGrid hgpos (by omega) (by omega) haj0 (by omega)
  have hQ3 : QG (initializeGrid (L+1)) (L+1) ((cy + (j:ℤ) * m) % L)
      ((cx + (j:ℤ) * (2*k+1)) % L + 1) = -colCharge ((cx + (j:ℤ) * (2*k+1)) % L) := by
    rw [QG_initializeGrid hgpos hbj0 (by omega) (by omega) (by omega), colCharge_succ]
  have hQ4 : QG (initializeGrid (L+1)) (L+1) ((cy + (j:ℤ) * m) % L + 1)
      ((cx + (j:ℤ) * (2*k+1)) % L + 1) = -colCharge ((cx + (j:ℤ) * (2*k+1)) % L) := by
    rw [QG_initializeGrid hgpos (by omega) (by omega) (by omega) (by omega), colCharge_succ]
  have hforce := computeTotalForce_design (L+1) (initializeGrid (L+1))
    (stateAt t0 k m cx cy L rx j) ((cx + (j:ℤ) * (2*k+1)) % L) ((cy + (j:ℤ) * m) % L)
    rx rfl rfl hrx0 hrx1 hQ1 hQ2 hQ3 hQ4
  have hDne : cornerD rx ≠ 0 := (cornerD_pos hrx0 hrx1).ne'
  have hsigma : colCharge ((cx + (j:ℤ) * (2*k+1)) % L) =
      colCharge cx * colCharge (j:ℤ) := by
    rw [colCharge_emod _ hdvd, colCharge_add, colCharge_mul_odd _ _ (by omega)]
  have hf1 : (computeTotalForce (stateAt t0 k m cx cy L rx j) (L+1)
      (initializeGrid (L+1))).1 =
      2 * (stateAt t0 k m cx cy L rx j).q *
        colCharge ((cx + (j:ℤ) * (2*k+1)) % L) * cornerD rx := by
    rw [hforce]
  have hf2 : (computeTotalForce (stateAt t0 k m cx cy L rx j) (L+1)
      (initializeGrid (L+1))).2 = 0 := by
    rw [hforce]
  have hfa : (computeTotalForce (stateAt t0 k m cx cy L rx j) (L+1)
      (initializeGrid (L+1))).1 * mass_inv =
      2 * ((2*k+1 : ℤ) : ℝ) * colCharge (j:ℤ) := by
    rw [hf1, hsigma]
    have hq : (stateAt t0 k m cx cy L rx j).q =
        colCharge cx * ((2*k+1 : ℤ) : ℝ) * (cornerD rx)⁻¹ := rfl
    rw [hq]
    unfold mass_inv
    calc 2 * (colCharge cx * ((2*k+1 : ℤ) : ℝ) * (cornerD rx)⁻¹) *
          (colCharge cx * colCharge (j:ℤ)) * cornerD rx * 1.0
        = 2 * ((2*k+1 : ℤ) : ℝ) * colCharge (j:ℤ) *
            (colCharge cx * colCharge cx) * ((cornerD rx)⁻¹ * cornerD rx) := by
          norm_num
          ring
      _ = 2 * ((2*k+1 : ℤ) : ℝ) * colCharge (j:ℤ) := by
          rw [colCharge_mul_self, inv_mul_cancel₀ hDne]
          ring
  have hfb : (computeTotalForce (stateAt t0 k m cx cy L rx j) (L+1)
      (initializeGrid (L+1))).2 * mass_inv = 0 := by
    rw [hf2]
    ring
  simp only [simStep, hfa, hfb]
  refine particle_t.ext ?_ ?_ ?_ ?_ rfl rfl rfl rfl rfl rfl
  · show cFmod ((((cx + (j:ℤ) * (2*k+1)) % L : ℤ) : ℝ) + rx +
        ((2*k+1 : ℤ) : ℝ) * (1 - colCharge (j:ℤ)) * dt +
        0.5 * (2 * ((2*k+1 : ℤ) : ℝ) * colCharge (j:ℤ)) * dt * dt + ((L:ℤ):ℝ)) ((L:ℤ):ℝ)
      = (((cx + ((j+1 : ℕ):ℤ) * (2*k+1)) % L : ℤ) : ℝ) + rx
    have harg : (((cx + (j:ℤ) * (2*k+1)) % L : ℤ) : ℝ) + rx +
        ((2*k+1 : ℤ) : ℝ) * (1 - colCharge (j:ℤ)) * dt +
        0.5 * (2 * ((2*k+1 : ℤ) : ℝ) * colCharge (j:ℤ)) * dt * dt + ((L:ℤ):ℝ)
        = ((((cx + (j:ℤ) * (2*k+1)) % L + (2*k+1) + L : ℤ)) : ℝ) + rx := by
      unfold dt
      push_cast
      ring
    rw [harg]
    have hnnz : (0:ℤ) ≤ (cx + (j:ℤ) * (2*k+1)) % L + (2*k+1) + L := by omega
    have hnn : (0:ℝ) ≤ ((((cx + (j:ℤ) * (2*k+1)) % L + (2*k+1) + L : ℤ)) : ℝ) + rx := by
      have : (0:ℝ) ≤ ((((cx + (j:ℤ) * (2*k+1)) % L + (2*k+1) + L : ℤ)) : ℝ) := by
        exact_mod_cast hnnz
      linarith
    rw [cFmod_intCast_add _ L hrx0.le hrx1 hLpos hnn]
    have hmod : ((cx + (j:ℤ) * (2*k+1)) % L + (2*k+1) + L) % L =
        (cx + ((j+1 : ℕ):ℤ) * (2*k+1)) % L := by
      rw [emod_add_shift]
      push_cast
      congr 1
      ring
    rw [hmod]
  · show cFmod ((((cy + (j:ℤ) * m) % L : ℤ) : ℝ) + 1/2 + (m:ℝ) * dt +
        0.5 * 0 * dt * dt + ((L:ℤ):ℝ)) ((L:ℤ):ℝ)
      = (((cy + ((j+1 : ℕ):ℤ) * m) % L : ℤ) : ℝ) + 1/2
    have harg : (((cy + (j:ℤ) * m) % L : ℤ) : ℝ) + 1/2 + (m:ℝ) * dt +
        0.5 * 0 * dt * dt + ((L:ℤ):ℝ)
        = ((((cy + (j:ℤ) * m) % L + m + L : ℤ)) : ℝ) + 1/2 := by
      unfold dt
      push_cast
      ring
    rw [harg]
    have hnnz : (0:ℤ) ≤ (cy + (j:ℤ) * m) % L + m + L := by omega
    have hnn : (0:ℝ) ≤ ((((cy + (j:ℤ) * m) % L + m + L : ℤ)) : ℝ) + 1/2 := by
      have : (0:ℝ) ≤ ((((cy + (j:ℤ) * m) % L + m + L : ℤ)) : ℝ) := by
        exact_mod_cast hnnz
      linarith
    rw [cFmod_intCast_add _ L (by norm_num) (by norm_num) hLpos hnn]
    have hmod : ((cy + (j:ℤ) * m) % L + m + L) % L =
        (cy + ((j+1 : ℕ):ℤ) * m) % L := by
      rw [emod_add_shift]
      push_cast
      congr 1
      ring
    rw [hmod]
  · show ((2*k+1 : ℤ) : ℝ) * (1 - colCharge (j:ℤ)) +
        2 * ((2*k+1 : ℤ) : ℝ) * colCharge (j:ℤ) * dt
      = ((2*k+1 : ℤ) : ℝ) * (1 - colCharge ((j+1 : ℕ):ℤ))
    have hsucc : colCharge ((j+1 : ℕ):ℤ) = -colCharge (j:ℤ) := by
      push_cast
      rw [colCharge_succ]
    rw [hsucc]
    unfold dt
    ring
  · show (m:ℝ) + 0 * dt = (m:ℝ)
    ring

lemma evolve_design (L cx cy k m t0 : ℤ) (rx : ℝ)
    (hL : 2 ≤ L) (hL2 : L % 2 = 0)
    (hcx0 : 0 ≤ cx) (hcxL : cx < L) (hcy0 : 0 ≤ cy) (hcyL : cy < L)
    (hrx0 : 0 < rx) (hrx1 : rx < 1) (hk : 0 ≤ k) (hm : -L ≤ m) :
    ∀ j : ℕ, evolve (L + 1) (initializeGrid (L + 1)) ((L : ℤ) : ℝ) j
      (finishOne t0 k m (rawParticle ((cx : ℝ) + rx) ((cy : ℝ) + 1/2)))
      = stateAt t0 k m cx cy L rx j := by
  intro j
  induction j with
  | zero =>
    show finishOne t0 k m (rawParticle ((cx : ℝ) + rx) ((cy : ℝ) + 1/2))
      = stateAt t0 k m cx cy L rx 0
    rw [finishOne_design t0 k m cx cy rx hcx0 hcy0 hrx0 hrx1]
    have hxmod : (cx + ((0:ℕ):ℤ) * (2*k+1)) % L = cx := by
      push_cast
      rw [zero_mul, add_zero]
      exact Int.emod_eq_of_lt hcx0 hcxL
    have hymod : (cy + ((0:ℕ):ℤ) * m) % L = cy := by
      push_cast
      rw [zero_mul, add_zero]
      exact Int.emod_eq_of_lt hcy0 hcyL
    have hcc0 : colCharge (((0:ℕ):ℤ)) = 1 := by
      unfold colCharge Qcharge
      norm_num
    refine particle_t.ext ?_ ?_ ?_ rfl rfl rfl rfl rfl rfl rfl
    · show (cx : ℝ) + rx = (((cx + ((0:ℕ):ℤ) * (2*k+1)) % L : ℤ) : ℝ) + rx
      rw [hxmod]
    · show (cy : ℝ) + 1/2 = (((cy + ((0:ℕ):ℤ) * m) % L : ℤ) : ℝ) + 1/2
      rw [hymod]
    · show (0 : ℝ) = ((2*k+1 : ℤ) : ℝ) * (1 - colCharge (((0:ℕ):ℤ)))
      rw [hcc0]
      ring
  | succ jm ih =>
    show simStep (L + 1) (initializeGrid (L + 1)) ((L : ℤ) : ℝ)
        (evolve (L + 1) (initializeGrid (L + 1)) ((L : ℤ) : ℝ) jm
          (finishOne t0 k m (rawParticle ((cx : ℝ) + rx) ((cy : ℝ) + 1/2))))
      = stateAt t0 k m cx cy L rx (jm + 1)
    rw [ih]
    exact simStep_design L cx cy k m t0 rx hL hL2 hcx0 hcy0 hrx0 hrx1 hk hm jm

lemma verify_stateAt (L cx cy k m t0 : ℤ) (rx : ℝ)
    (hL : 2 ≤ L) (hL2 : L % 2 = 0)
    (hcx0 : 0 ≤ cx) (hcxL : cx < L) (hcy0 : 0 ≤ cy) (hcyL : cy < L)
    (hrx0 : 0 < rx) (hrx1 : rx < 1) (hk : 0 ≤ k) (j : ℕ) :
    verifyParticle (stateAt t0 k m cx cy L rx j) (t0 + (j:ℤ))
      (initializeGrid (L + 1)) (L + 1) = SUCCESS := by
  have hLpos : (0:ℤ) < L := by omega
  have hgpos : (0:ℤ) < L + 1 := by omega
  have hfx0 : ⌊(cx : ℝ) + rx⌋ = cx := floor_int_add_of_Ico cx hrx0.le hrx1
  have hfy0 : ⌊(cy : ℝ) + 1/2⌋ = cy := floor_int_add_of_Ico cy (by norm_num) (by norm_num)
  have hQ : QG (initializeGrid (L+1)) (L+1) cy cx = colCharge cx :=
    QG_initializeGrid hgpos hcy0 (by omega) hcx0 (by omega)
  have hDpos : 0 < cornerD rx := cornerD_pos hrx0 hrx1
  have hwpos : (0:ℝ) < ((2*k+1 : ℤ) : ℝ) := by
    have : (0:ℤ) < 2*k+1 := by omega
    exact_mod_cast this
  have hqpos : 0 < colCharge cx * ((2*k+1 : ℤ) : ℝ) * (cornerD rx)⁻¹ * colCharge cx := by
    have h1 : colCharge cx * ((2*k+1 : ℤ) : ℝ) * (cornerD rx)⁻¹ * colCharge cx
        = (colCharge cx * colCharge cx) * (((2*k+1 : ℤ) : ℝ) * (cornerD rx)⁻¹) := by
      ring
    rw [h1, colCharge_mul_self, one_mul]
    exact mul_pos hwpos (inv_pos.mpr hDpos)
  have hxper : cFmod (((cx : ℝ) + rx + (((t0 + (j:ℤ) - t0) * (2*k+1) : ℤ) : ℝ)) +
      (((t0 + (j:ℤ) - t0) * (2*k+1) : ℤ) : ℝ) * ((L + 1 - 1 : ℤ) : ℝ)) ((L + 1 - 1 : ℤ) : ℝ)
      = (((cx + (j:ℤ) * (2*k+1)) % L : ℤ) : ℝ) + rx := by
    have hts : t0 + (j:ℤ) - t0 = (j:ℤ) := by ring
    rw [hts]
    have hg1 : (L + 1 - 1 : ℤ) = L := by ring
    rw [hg1]
    have harg : ((cx : ℝ) + rx + (((j:ℤ) * (2*k+1) : ℤ) : ℝ)) +
        (((j:ℤ) * (2*k+1) : ℤ) : ℝ) * ((L : ℤ) : ℝ)
        = (((cx + (j:ℤ) * (2*k+1) + ((j:ℤ) * (2*k+1)) * L : ℤ)) : ℝ) + rx := by
      push_cast
      ring
    rw [harg]
    have hj1 : (0:ℤ) ≤ (j:ℤ) * (2*k+1) := mul_nonneg (by positivity) (by omega)
    have hj2 : (0:ℤ) ≤ ((j:ℤ) * (2*k+1)) * L := mul_nonneg hj1 (by omega)
    have hnn : (0:ℝ) ≤ (((cx + (j:ℤ) * (2*k+1) + ((j:ℤ) * (2*k+1)) * L : ℤ)) : ℝ) + rx := by
      have hz : (0:ℤ) ≤ cx + (j:ℤ) * (2*k+1) + ((j:ℤ) * (2*k+1)) * L := by omega
      have : (0:ℝ) ≤ (((cx + (j:ℤ) * (2*k+1) + ((j:ℤ) * (2*k+1)) * L : ℤ)) : ℝ) := by
        exact_mod_cast hz
      linarith
    rw [cFmod_intCast_add _ L hrx0.le hrx1 hLpos hnn, Int.add_mul_emod_self]
  have hyper : cFmod (((cy : ℝ) + 1/2 + ((m * (t0 + (j:ℤ) - t0) : ℤ) : ℝ)) +
      ((t0 + (j:ℤ) - t0 : ℤ) : ℝ) * |(m : ℝ)| * ((L + 1 - 1 : ℤ) : ℝ)) ((L + 1 - 1 : ℤ) : ℝ)
      = (((cy + (j:ℤ) * m) % L : ℤ) : ℝ) + 1/2 := by
    have hts : t0 + (j:ℤ) - t0 = (j:ℤ) := by ring
    rw [hts]
    have hg1 : (L + 1 - 1 : ℤ) = L := by ring
    rw [hg1]
    have habs : |(m : ℝ)| = ((|m| : ℤ) : ℝ) := by
      rw [Int.cast_abs]
    rw [habs]
    have harg : ((cy : ℝ) + 1/2 + ((m * (j:ℤ) : ℤ) : ℝ)) +
        ((j:ℤ) : ℝ) * ((|m| : ℤ) : ℝ) * ((L : ℤ) : ℝ)
        = (((cy + m * (j:ℤ) + ((j:ℤ) * |m|) * L : ℤ)) : ℝ) + 1/2 := by
      push_cast
      ring
    rw [harg]
    have h3 : (0:ℤ) ≤ m + |m| * L := by
      rcases le_or_lt 0 m with hm0 | hm0
      · have : (0:ℤ) ≤ |m| * L := mul_nonneg (abs_nonneg m) (by omega)
        omega
      · have habs2 : |m| = -m := abs_of_neg hm0
        have h4 : |m| * 1 ≤ |m| * L := by
          exact mul_le_mul_of_nonneg_left (by omega) (abs_nonneg m)
        omega
    have hkey : (0:ℤ) ≤ (j:ℤ) * (m + |m| * L) := mul_nonneg (by positivity) h3
    have h5 : m * (j:ℤ) + ((j:ℤ) * |m|) * L = (j:ℤ) * (m + |m| * L) := by ring
    have hnn : (0:ℝ) ≤ (((cy + m * (j:ℤ) + ((j:ℤ) * |m|) * L : ℤ)) : ℝ) + 1/2 := by
      have hz : (0:ℤ) ≤ cy + m * (j:ℤ) + ((j:ℤ) * |m|) * L := by omega
      have : (0:ℝ) ≤ (((cy + m * (j:ℤ) + ((j:ℤ) * |m|) * L : ℤ)) : ℝ) := by
        exact_mod_cast hz
      linarith
    rw [cFmod_intCast_add _ L (by norm_num) (by norm_num) hLpos hnn,
        Int.add_mul_emod_self]
    have h6 : (cy + m * (j:ℤ)) % L = (cy + (j:ℤ) * m) % L := by
      congr 1
      ring
    rw [h6]
  simp only [verifyParticle, verifyTargets, stateAt, hfx0, hfy0, hQ]
  rw [if_pos hqpos, hxper, hyper]
  rw [if_neg]
  push_neg
  constructor
  · simp only [sub_self, abs_zero]
    unfold epsilon
    norm_num
  · simp only [sub_self, abs_zero]
    unfold epsilon
    norm_num

/-- C1 claim theorem.  A particle seeded by an initializer at cell
(cx,cy) with fractional offsets (rx, 1/2), completed by
finish_distribution at step t0, and evolved for j steps purely by
moveParticle under computeTotalForce accelerations (unit mass, dt=1)
passes verifyParticle at step t0+j, provided k is non-negative (as
main validates) and the vertical drift satisfies m >= -L. -/
theorem C1_trajectory_verify (L cx cy k m t0 : ℤ) (rx : ℝ) (j : ℕ)
    (hL : 2 ≤ L) (hL2 : L % 2 = 0)
    (hcx0 : 0 ≤ cx) (hcxL : cx < L) (hcy0 : 0 ≤ cy) (hcyL : cy < L)
    (hrx0 : 0 < rx) (hrx1 : rx < 1) (hk : 0 ≤ k) (hm : -L ≤ m) :
    verifyParticle
      (evolve (L + 1) (initializeGrid (L + 1)) ((L : ℤ) : ℝ) j
        (finishOne t0 k m (rawParticle ((cx : ℝ) + rx) ((cy : ℝ) + 1/2))))
      (t0 + (j:ℤ)) (initializeGrid (L + 1)) (L + 1) = SUCCESS := by
  rw [evolve_design L cx cy k m t0 rx hL hL2 hcx0 hcxL hcy0 hcyL hrx0 hrx1 hk hm j]
  exact verify_stateAt L cx cy k m t0 rx hL hL2 hcx0 hcxL hcy0 hcyL hrx0 hrx1 hk j

/-- Witness for C1: a concrete design particle (L=2, cell (0,0),
offsets (1/2,1/2), k=0, m=0, created at step 0) verifies after one
step. -/
theorem C1_trajectory_verify_witness :
    verifyParticle
      (evolve (2 + 1) (initializeGrid (2 + 1)) (((2:ℤ) : ℤ) : ℝ) 1
        (finishOne 0 0 0 (rawParticle (((0:ℤ) : ℝ) + 1/2) (((0:ℤ) : ℝ) + 1/2))))
      (0 + ((1:ℕ):ℤ)) (initializeGrid (2 + 1)) (2 + 1) = SUCCESS :=
  C1_trajectory_verify 2 0 0 0 0 0 (1/2) 1 (by norm_num) (by norm_num) (by norm_num)
    (by norm_num) (by norm_num) (by norm_num) (by norm_num) (by norm_num)
    (by norm_num) (by norm_num)

/-- The state one step after creation of the C1 counterexample
particle (L=2, m=-5): the truncated fmod leaves y negative. -/
noncomputable def cex1State : particle_t :=
  { x := ((1:ℤ) : ℝ) + 1/2
    y := -(1/2)
    v_x := 2
    v_y := ((-5:ℤ) : ℝ)
    q := colCharge 0 * ((2*0+1 : ℤ) : ℝ) * (cornerD (1/2))⁻¹
    x0 := ((0:ℤ) : ℝ) + 1/2
    y0 := ((0:ℤ) : ℝ) + 1/2
    k := 0
    m := -5
    initTimestamp := 0 }

/-- Counterexample to C1 as frozen: with L=2 and vertical drift
m=-5 the particle evolved one step purely by the force-and-move
dynamics from its finish_distribution creation state fails
verifyParticle at step 1 (the truncated fmod wraps y to a negative
coordinate while the analytic target stays in [0,L)). -/
theorem C1_counterexample :
    verifyParticle
      (evolve (2 + 1) (initializeGrid (2 + 1)) (((2:ℤ) : ℤ) : ℝ) 1
        (finishOne 0 0 (-5) (rawParticle (((0:ℤ) : ℝ) + 1/2) (((0:ℤ) : ℝ) + 1/2))))
      (0 + ((1:ℕ):ℤ)) (initializeGrid (2 + 1)) (2 + 1) = FAILURE := by
  have hcc0 : colCharge 0 = 1 := by
    unfold colCharge Qcharge
    norm_num
  have hDpos : 0 < cornerD (1/2) :=
    cornerD_pos (by norm_num) (by norm_num)
  have hDne : cornerD (1/2) ≠ 0 := hDpos.ne'
  have hfin := finishOne_design 0 0 (-5) 0 0 (1/2) le_rfl le_rfl (by norm_num) (by norm_num)
  have hg3 : (0:ℤ) < 2 + 1 := by norm_num
  have hQ00 : QG (initializeGrid (2+1)) (2+1) 0 0 = colCharge 0 :=
    QG_initializeGrid hg3 le_rfl (by norm_num) le_rfl (by norm_num)
  have hQ10 : QG (initializeGrid (2+1)) (2+1) (0+1) 0 = colCharge 0 :=
    QG_initializeGrid hg3 (by norm_num) (by norm_num) le_rfl (by norm_num)
  have hQ01 : QG (initializeGrid (2+1)) (2+1) 0 (0+1) = -colCharge 0 := by
    rw [QG_initializeGrid hg3 le_rfl (by norm_num) (by norm_num) (by norm_num),
        colCharge_succ]
  have hQ11 : QG (initializeGrid (2+1)) (2+1) (0+1) (0+1) = -colCharge 0 := by
    rw [QG_initializeGrid hg3 (by norm_num) (by norm_num) (by norm_num) (by norm_num),
        colCharge_succ]
  have hp0 : finishOne 0 0 (-5) (rawParticle (((0:ℤ) : ℝ) + 1/2) (((0:ℤ) : ℝ) + 1/2))
      = stateAt 0 0 (-5) 0 0 2 (1/2) 0 := by
    rw [hfin]
    refine particle_t.ext ?_ ?_ ?_ rfl rfl rfl rfl rfl rfl rfl
    · show ((0:ℤ) : ℝ) + 1/2 = (((0 + ((0:ℕ):ℤ) * (2*0+1)) % 2 : ℤ) : ℝ) + 1/2
      norm_num
    · show ((0:ℤ) : ℝ) + 1/2 = (((0 + ((0:ℕ):ℤ) * (-5)) % 2 : ℤ) : ℝ) + 1/2
      norm_num
    · show (0:ℝ) = ((2*0+1 : ℤ) : ℝ) * (1 - colCharge ((0:ℕ):ℤ))
      have h00 : ((0:ℕ):ℤ) = 0 := rfl
      rw [h00, hcc0]
      ring
  have hx0 : (stateAt 0 0 (-5) 0 0 2 (1/2) 0).x = ((0:ℤ) : ℝ) + 1/2 := by
    show (((0 + ((0:ℕ):ℤ) * (2*0+1)) % 2 : ℤ) : ℝ) + 1/2 = ((0:ℤ) : ℝ) + 1/2
    norm_num
  have hy0 : (stateAt 0 0 (-5) 0 0 2 (1/2) 0).y = ((0:ℤ) : ℝ) + 1/2 := by
    show (((0 + ((0:ℕ):ℤ) * (-5)) % 2 : ℤ) : ℝ) + 1/2 = ((0:ℤ) : ℝ) + 1/2
    norm_num
  have hv0 : (stateAt 0 0 (-5) 0 0 2 (1/2) 0).v_x = 0 := by
    show ((2*0+1 : ℤ) : ℝ) * (1 - colCharge ((0:ℕ):ℤ)) = 0
    have h00 : ((0:ℕ):ℤ) = 0 := rfl
    rw [h00, hcc0]
    ring
  have hforce := computeTotalForce_design (2+1) (initializeGrid (2+1))
    (stateAt 0 0 (-5) 0 0 2 (1/2) 0) 0 0 (1/2) hx0 hy0 (by norm_num) (by norm_num)
    hQ00 hQ10 hQ01 hQ11
  have hf1 : (computeTotalForce (stateAt 0 0 (-5) 0 0 2 (1/2) 0) (2+1)
      (initializeGrid (2+1))).1 =
      2 * (stateAt 0 0 (-5) 0 0 2 (1/2) 0).q * colCharge 0 * cornerD (1/2) := by
    rw [hforce]
  have hf2 : (computeTotalForce (stateAt 0 0 (-5) 0 0 2 (1/2) 0) (2+1)
      (initializeGrid (2+1))).2 = 0 := by
    rw [hforce]
  have hfa : (computeTotalForce (stateAt 0 0 (-5) 0 0 2 (1/2) 0) (2+1)
      (initializeGrid (2+1))).1 * mass_inv = 2 := by
    rw [hf1]
    have hq : (stateAt 0 0 (-5) 0 0 2 (1/2) 0).q =
        colCharge 0 * ((2*0+1 : ℤ) : ℝ) * (cornerD (1/2))⁻¹ := rfl
    rw [hq, hcc0]
    unfold mass_inv
    push_cast
    field_simp
    norm_num
  have hfb : (computeTotalForce (stateAt 0 0 (-5) 0 0 2 (1/2) 0) (2+1)
      (initializeGrid (2+1))).2 * mass_inv = 0 := by
    rw [hf2]
    ring
  have hstep : evolve (2 + 1) (initializeGrid (2 + 1)) (((2:ℤ) : ℤ) : ℝ) 1
      (finishOne 0 0 (-5) (rawParticle (((0:ℤ) : ℝ) + 1/2) (((0:ℤ) : ℝ) + 1/2)))
      = cex1State := by
    show simStep (2 + 1) (initializeGrid (2 + 1)) (((2:ℤ) : ℤ) : ℝ)
      (finishOne 0 0 (-5) (rawParticle (((0:ℤ) : ℝ) + 1/2) (((0:ℤ) : ℝ) + 1/2)))
      = cex1State
    rw [hp0]
    simp only [simStep, hfa, hfb]
    refine particle_t.ext ?_ ?_ ?_ ?_ rfl rfl rfl rfl rfl rfl
    · show cFmod ((stateAt 0 0 (-5) 0 0 2 (1/2) 0).x +
          (stateAt 0 0 (-5) 0 0 2 (1/2) 0).v_x * dt + 0.5 * 2 * dt * dt +
          (((2:ℤ) : ℤ) : ℝ)) (((2:ℤ) : ℤ) : ℝ) = ((1:ℤ) : ℝ) + 1/2
      rw [hx0, hv0]
      have harg : ((0:ℤ) : ℝ) + 1/2 + 0 * dt + 0.5 * 2 * dt * dt + (((2:ℤ) : ℤ) : ℝ)
          = ((3:ℤ) : ℝ) + 1/2 := by
        unfold dt
        push_cast
        ring
      rw [harg, cFmod_intCast_add 3 2 (by norm_num) (by norm_num) (by norm_num)
        (by push_cast; norm_num)]
      norm_num
    · show cFmod ((stateAt 0 0 (-5) 0 0 2 (1/2) 0).y +
          (stateAt 0 0 (-5) 0 0 2 (1/2) 0).v_y * dt + 0.5 * 0 * dt * dt +
          (((2:ℤ) : ℤ) : ℝ)) (((2:ℤ) : ℤ) : ℝ) = -(1/2)
      rw [hy0]
      have hvy : (stateAt 0 0 (-5) 0 0 2 (1/2) 0).v_y = ((-5:ℤ) : ℝ) := rfl
      rw [hvy]
      have harg : ((0:ℤ) : ℝ) + 1/2 + ((-5:ℤ) : ℝ) * dt + 0.5 * 0 * dt * dt +
          (((2:ℤ) : ℤ) : ℝ) = -(5/2) := by
        unfold dt
        push_cast
        ring
      rw [harg]
      have hdiv : (-(5/2) : ℝ) / (((2:ℤ) : ℤ) : ℝ) = -(5/4) := by
        push_cast
        norm_num
      have htr : cTrunc ((-(5/2) : ℝ) / (((2:ℤ) : ℤ) : ℝ)) = -1 := by
        rw [hdiv]
        unfold cTrunc
        rw [if_neg (by norm_num)]
        rw [Int.ceil_eq_iff]
        constructor <;> norm_num
      unfold cFmod
      rw [htr]
      push_cast
      ring
    · show (stateAt 0 0 (-5) 0 0 2 (1/2) 0).v_x + 2 * dt = 2
      rw [hv0]
      unfold dt
      norm_num
    · show (stateAt 0 0 (-5) 0 0 2 (1/2) 0).v_y + 0 * dt = ((-5:ℤ) : ℝ)
      have hvy : (stateAt 0 0 (-5) 0 0 2 (1/2) 0).v_y = ((-5:ℤ) : ℝ) := rfl
      rw [hvy]
      ring
  rw [hstep]
  have hyT : (verifyTargets cex1State (0 + ((1:ℕ):ℤ)) (initializeGrid (2+1)) (2+1)).2
      = 3/2 := by
    simp only [verifyTargets, cex1State]
    have harg : ((0:ℤ) : ℝ) + 1/2 + (((-5 : ℤ) * (0 + ((1:ℕ):ℤ) - 0) : ℤ) : ℝ) +
        ((0 + ((1:ℕ):ℤ) - 0 : ℤ) : ℝ) * |((-5 : ℤ) : ℝ)| * ((2 + 1 - 1 : ℤ) : ℝ)
        = ((5:ℤ) : ℝ) + 1/2 := by
      push_cast
      norm_num
    rw [harg]
    have h21 : ((2 + 1 - 1 : ℤ) : ℝ) = ((2 : ℤ) : ℝ) := by norm_num
    rw [h21, cFmod_intCast_add 5 2 (by norm_num) (by norm_num) (by norm_num)
      (by push_cast; norm_num)]
    norm_num
  have h2 : epsilon <
      |cex1State.y - (verifyTargets cex1State (0 + ((1:ℕ):ℤ))
        (initializeGrid (2+1)) (2+1)).2| := by
    rw [hyT]
    show epsilon < |(-(1/2) : ℝ) - 3/2|
    unfold epsilon
    norm_num
  unfold verifyParticle
  rw [if_pos (Or.inr h2)]

/-- C2 claim theorem (amended).  verifyParticle returns SUCCESS exactly
when both coordinates are within the code tolerance epsilon = 1e-6 of
the periodically wrapped analytic targets (the claim said 1e-8), and
it only ever returns SUCCESS or FAILURE. -/
theorem C2_verify_iff (p : particle_t) (t : ℤ) (Qgrid : List ℝ) (g : ℤ) :
    (verifyParticle p t Qgrid g = SUCCESS ∨ verifyParticle p t Qgrid g = FAILURE) ∧
    (verifyParticle p t Qgrid g = SUCCESS ↔
      |p.x - (verifyTargets p t Qgrid g).1| ≤ epsilon ∧
      |p.y - (verifyTargets p t Qgrid g).2| ≤ epsilon) := by
  unfold verifyParticle
  split_ifs with h
  · refine ⟨Or.inr rfl, ?_, ?_⟩
    · intro hfs
      exact absurd hfs (by unfold FAILURE SUCCESS; norm_num)
    · intro hcond
      exfalso
      rcases h with h | h
      · linarith [hcond.1]
      · linarith [hcond.2]
  · push_neg at h
    exact ⟨Or.inl rfl, fun _ => ⟨h.1, h.2⟩, fun _ => rfl⟩

/-- The C2 counterexample particle: its x misses the analytic target
by 1e-7, between the spec tolerance 1e-8 and the code tolerance
1e-6. -/
noncomputable def cex2P : particle_t :=
  { x := 1/2 + 0.0000001
    y := 1/2
    v_x := 0
    v_y := 0
    q := 1
    x0 := 1/2
    y0 := 1/2
    k := 0
    m := 0
    initTimestamp := 0 }

lemma cex2_targets :
    verifyTargets cex2P 0 (initializeGrid (2+1)) (2+1) = (1/2, 1/2) := by
  have hcc0 : colCharge 0 = 1 := by
    unfold colCharge Qcharge
    norm_num
  have hg3 : (0:ℤ) < 2 + 1 := by norm_num
  have hQ00 : QG (initializeGrid (2+1)) (2+1) 0 0 = colCharge 0 :=
    QG_initializeGrid hg3 le_rfl (by norm_num) le_rfl (by norm_num)
  have hfl : ⌊(1/2 : ℝ)⌋ = (0:ℤ) := by norm_num
  simp only [verifyTargets, cex2P, hfl, hQ00, hcc0]
  rw [if_pos (by norm_num : (0:ℝ) < 1 * 1)]
  have harg1 : (1/2 : ℝ) + (((0 - 0) * (2 * 0 + 1) : ℤ) : ℝ) +
      (((0 - 0) * (2 * 0 + 1) : ℤ) : ℝ) * ((2 + 1 - 1 : ℤ) : ℝ) = 1/2 := by
    push_cast
    ring
  have harg2 : (1/2 : ℝ) + ((0 * (0 - 0) : ℤ) : ℝ) +
      ((0 - 0 : ℤ) : ℝ) * |((0 : ℤ) : ℝ)| * ((2 + 1 - 1 : ℤ) : ℝ) = 1/2 := by
    push_cast
    ring
  rw [harg1, harg2]
  have hfm : cFmod (1/2 : ℝ) ((2 + 1 - 1 : ℤ) : ℝ) = 1/2 := by
    apply cFmod_of_Ico (by norm_num)
    push_cast
    norm_num
  rw [hfm]

/-- Counterexample to C2 as frozen: a particle whose x misses the
analytic target by 1e-7 is accepted by verifyParticle (the code
tolerance is epsilon = 1e-6), while the 1e-8 tolerance the claim
states rejects it. -/
theorem C2_counterexample :
    verifyParticle cex2P 0 (initializeGrid (2+1)) (2+1) = SUCCESS ∧
    ¬ specVerifySuccess cex2P 0 (initializeGrid (2+1)) (2+1) := by
  constructor
  · unfold verifyParticle
    rw [cex2_targets]
    rw [if_neg]
    push_neg
    constructor
    · show |cex2P.x - 1/2| ≤ epsilon
      unfold cex2P epsilon
      rw [show (1/2 : ℝ) + 0.0000001 - 1/2 = 0.0000001 by ring]
      rw [abs_of_pos (by norm_num)]
      norm_num
    · show |cex2P.y - 1/2| ≤ epsilon
      unfold cex2P epsilon
      norm_num
  · unfold specVerifySuccess
    rw [cex2_targets]
    intro hcond
    have h1 := hcond.1
    have hxv : cex2P.x - (((1:ℝ)/2, (1:ℝ)/2) : ℝ × ℝ).1 = 0.0000001 := by
      show (1/2 : ℝ) + 0.0000001 - 1/2 = 0.0000001
      ring
    rw [hxv, abs_of_pos (by norm_num)] at h1
    norm_num at h1


/-- The C3 charge as the code computes it, rewritten against the spec
magnitude formula: the sign factor from the column parity times the
full (2k+1)-scaled magnitude. -/
lemma finishOne_q_eq (timestep k m : ℤ) (p : particle_t) :
    (finishOne timestep k m p).q =
    (if (cTrunc p.x).tmod 2 = 0 then 1 else -1) * ((2*k+1 : ℤ) : ℝ) *
      specChargeMagnitude p := by
  simp only [finishOne, specChargeMagnitude]
  have hr1 : (0:ℝ) ≤ cFmod p.y 1 * cFmod p.y 1 + cFmod p.x 1 * cFmod p.x 1 :=
    add_nonneg (mul_self_nonneg _) (mul_self_nonneg _)
  have hr2 : (0:ℝ) ≤ cFmod p.y 1 * cFmod p.y 1 +
      (1 - cFmod p.x 1) * (1 - cFmod p.x 1) :=
    add_nonneg (mul_self_nonneg _) (mul_self_nonneg _)
  generalize hA : cFmod p.y 1 * cFmod p.y 1 + cFmod p.x 1 * cFmod p.x 1 = A
  generalize hB : cFmod p.y 1 * cFmod p.y 1 +
      (1 - cFmod p.x 1) * (1 - cFmod p.x 1) = B
  generalize hsA : Real.sqrt A = sA
  generalize hsB : Real.sqrt B = sB
  rw [hA] at hr1
  rw [hB] at hr2
  have h3a : sA ^ 3 = A * sA := by
    rw [← hsA, pow_succ, Real.sq_sqrt hr1]
  have h3b : sB ^ 3 = B * sB := by
    rw [← hsB, pow_succ, Real.sq_sqrt hr2]
  rw [h3a, h3b]
  split_ifs with h
  · ring
  · ring

/-- C3 claim theorem (amended).  finish_distribution maps the loop
body over the slice; the loop body sets the velocity to (0, m/dt),
records the provenance fields, and assigns the charge with magnitude
scaled by the full factor (2k+1) (the claim omitted this factor) and
sign given by the parity of the particle's column. -/
theorem C3_finish_distribution (ts k m : ℤ) (ps : List particle_t) (p : particle_t) :
    finish_distribution ts k m ps = ps.map (finishOne ts k m) ∧
    (finishOne ts k m p).q =
      (if (cTrunc p.x).tmod 2 = 0 then 1 else -1) * ((2*k+1 : ℤ) : ℝ) *
        specChargeMagnitude p ∧
    (finishOne ts k m p).v_x = 0 ∧
    (finishOne ts k m p).v_y = (m : ℝ) / dt ∧
    (finishOne ts k m p).x0 = p.x ∧
    (finishOne ts k m p).y0 = p.y ∧
    (finishOne ts k m p).k = k ∧
    (finishOne ts k m p).m = m ∧
    (finishOne ts k m p).initTimestamp = ts :=
  ⟨rfl, finishOne_q_eq ts k m p, rfl, rfl, rfl, rfl, rfl, rfl, rfl⟩

/-- Counterexample to C3 as frozen: for the cell-center particle with
k = 1 the assigned charge magnitude is 3 times the claimed magnitude
formula, not equal to it. -/
theorem C3_counterexample :
    |(finishOne 0 1 0 (rawParticle (1/2) (1/2))).q| ≠
      specChargeMagnitude (rawParticle (1/2) (1/2)) := by
  have hq := finishOne_q_eq 0 1 0 (rawParticle (1/2) (1/2))
  have hrx : cFmod ((rawParticle (1/2 : ℝ) (1/2 : ℝ)).x) 1 = 1/2 := by
    show cFmod (1/2 : ℝ) 1 = 1/2
    exact cFmod_of_Ico (by norm_num) (by norm_num)
  have hry : cFmod ((rawParticle (1/2 : ℝ) (1/2 : ℝ)).y) 1 = 1/2 := by
    show cFmod (1/2 : ℝ) 1 = 1/2
    exact cFmod_of_Ico (by norm_num) (by norm_num)
  have htr : cTrunc ((rawParticle (1/2 : ℝ) (1/2 : ℝ)).x) = 0 := by
    show cTrunc (1/2 : ℝ) = 0
    rw [cTrunc_of_nonneg (by norm_num)]
    norm_num
  have hmagpos : 0 < specChargeMagnitude (rawParticle (1/2) (1/2)) := by
    simp only [specChargeMagnitude]
    rw [hrx, hry]
    have hargA : (0:ℝ) < (1:ℝ)/2 * (1/2) + 1/2 * (1/2) := by norm_num
    have hargB : (0:ℝ) < (1:ℝ)/2 * (1/2) + (1 - 1/2) * (1 - 1/2) := by norm_num
    have p1 : (0:ℝ) < (1:ℝ)/2 / Real.sqrt ((1:ℝ)/2 * (1/2) + 1/2 * (1/2)) ^ 3 :=
      div_pos (by norm_num) (pow_pos (Real.sqrt_pos.mpr hargA) 3)
    have p2 : (0:ℝ) < ((1:ℝ) - 1/2) /
        Real.sqrt ((1:ℝ)/2 * (1/2) + (1 - 1/2) * (1 - 1/2)) ^ 3 :=
      div_pos (by norm_num) (pow_pos (Real.sqrt_pos.mpr hargB) 3)
    have hd : (0:ℝ) < (dt * dt) * Qcharge *
        ((1:ℝ)/2 / Real.sqrt ((1:ℝ)/2 * (1/2) + 1/2 * (1/2)) ^ 3 +
         (1 - 1/2) / Real.sqrt ((1:ℝ)/2 * (1/2) + (1 - 1/2) * (1 - 1/2)) ^ 3) := by
      unfold dt Qcharge
      nlinarith
    exact div_pos (by norm_num) hd
  rw [hq, htr]
  rw [if_pos (by decide : (0:ℤ).tmod 2 = 0)]
  have hval : (1 : ℝ) * ((2*1+1 : ℤ) : ℝ) *
      specChargeMagnitude (rawParticle (1/2) (1/2))
      = 3 * specChargeMagnitude (rawParticle (1/2) (1/2)) := by
    push_cast
    ring
  rw [hval, abs_of_pos (by linarith)]
  intro heq
  linarith

/-- C4 claim theorem (amended).  moveParticle performs exactly the
claimed position and velocity updates; the +L before the fmod keeps
the resulting coordinate in [0, L) whenever the fmod argument
x + v*dt + 0.5*a*dt^2 + L is non-negative, i.e. for displacements no
smaller than -(coordinate + L); an unboundedly negative displacement
escapes this guarantee (see the counterexample). -/
theorem C4_moveParticle (p : particle_t) (ax ay L : ℝ) (hL : 0 < L)
    (hxarg : 0 ≤ p.x + p.v_x * dt + 0.5 * ax * dt * dt + L)
    (hyarg : 0 ≤ p.y + p.v_y * dt + 0.5 * ay * dt * dt + L) :
    (moveParticle p ax ay L).x = cFmod (p.x + p.v_x * dt + 0.5 * ax * dt * dt + L) L ∧
    (moveParticle p ax ay L).y = cFmod (p.y + p.v_y * dt + 0.5 * ay * dt * dt + L) L ∧
    (moveParticle p ax ay L).v_x = p.v_x + ax * dt ∧
    (moveParticle p ax ay L).v_y = p.v_y + ay * dt ∧
    0 ≤ (moveParticle p ax ay L).x ∧ (moveParticle p ax ay L).x < L ∧
    0 ≤ (moveParticle p ax ay L).y ∧ (moveParticle p ax ay L).y < L := by
  have hx := cFmod_nonneg_lt hxarg hL
  have hy := cFmod_nonneg_lt hyarg hL
  exact ⟨rfl, rfl, rfl, rfl, hx.1, hx.2, hy.1, hy.2⟩

/-- Witness for C4 at a concrete particle, accelerations and L. -/
theorem C4_moveParticle_witness :
    (moveParticle (rawParticle (1/2) (1/2)) 1 0 2).x =
      cFmod ((rawParticle (1/2) (1/2)).x + (rawParticle (1/2) (1/2)).v_x * dt +
        0.5 * 1 * dt * dt + 2) 2 ∧
    (moveParticle (rawParticle (1/2) (1/2)) 1 0 2).y =
      cFmod ((rawParticle (1/2) (1/2)).y + (rawParticle (1/2) (1/2)).v_y * dt +
        0.5 * 0 * dt * dt + 2) 2 ∧
    (moveParticle (rawParticle (1/2) (1/2)) 1 0 2).v_x =
      (rawParticle (1/2) (1/2)).v_x + 1 * dt ∧
    (moveParticle (rawParticle (1/2) (1/2)) 1 0 2).v_y =
      (rawParticle (1/2) (1/2)).v_y + 0 * dt ∧
    0 ≤ (moveParticle (rawParticle (1/2) (1/2)) 1 0 2).x ∧
    (moveParticle (rawParticle (1/2) (1/2)) 1 0 2).x < 2 ∧
    0 ≤ (moveParticle (rawParticle (1/2) (1/2)) 1 0 2).y ∧
    (moveParticle (rawParticle (1/2) (1/2)) 1 0 2).y < 2 :=
  C4_moveParticle (rawParticle (1/2) (1/2)) 1 0 2 (by norm_num)
    (by show (0:ℝ) ≤ 1/2 + 0 * dt + 0.5 * 1 * dt * dt + 2; unfold dt; norm_num)
    (by show (0:ℝ) ≤ 1/2 + 0 * dt + 0.5 * 0 * dt * dt + 2; unfold dt; norm_num)

/-- Counterexample to C4 as frozen: for the displacement -3.5 (a
negative displacement of magnitude above x + L) the wrapped
coordinate is negative, so the +L does not guarantee a result in
[0, L) for every negative displacement. -/
theorem C4_counterexample :
    (rawParticle (1/2) (1/2)).v_x * dt + 0.5 * (-7) * dt * dt < 0 ∧
    (moveParticle (rawParticle (1/2) (1/2)) (-7) 0 2).x < 0 := by
  constructor
  · show (0:ℝ) * dt + 0.5 * (-7) * dt * dt < 0
    unfold dt
    norm_num
  · show cFmod ((1:ℝ)/2 + 0 * dt + 0.5 * (-7) * dt * dt + 2) 2 < 0
    have harg : (1:ℝ)/2 + 0 * dt + 0.5 * (-7) * dt * dt + 2 = -1 := by
      unfold dt
      norm_num
    rw [harg]
    have htr : cTrunc ((-1 : ℝ) / 2) = 0 := by
      unfold cTrunc
      rw [if_neg (by norm_num)]
      rw [Int.ceil_eq_iff]
      constructor <;> norm_num
    unfold cFmod
    rw [htr]
    norm_num

lemma remove_particles_foldl (t : ℤ) (patch : bbox_t) (Qgrid : List ℝ) (g : ℤ) :
    ∀ (ps : List particle_t) (acc : List particle_t) (pc : ℤ),
      ps.foldl
        (fun acc2 p =>
          if inPatch patch p then
            (acc2.1, acc2.2 * verifyParticle p t Qgrid g)
          else (acc2.1 ++ [p], acc2.2)) (acc, pc) =
      (acc ++ ps.filter (fun p => decide (¬ inPatch patch p)),
       pc * ((ps.filter (fun p => decide (inPatch patch p))).map
         (fun p => verifyParticle p t Qgrid g)).prod) := by
  intro ps
  induction ps with
  | nil =>
    intro acc pc
    simp
  | cons p ps ih =>
    intro acc pc
    by_cases h : inPatch patch p
    · have hf1 : (p :: ps).filter (fun p2 => decide (¬ inPatch patch p2)) =
          ps.filter (fun p2 => decide (¬ inPatch patch p2)) := by
        simp [List.filter_cons, h]
      have hf2 : (p :: ps).filter (fun p2 => decide (inPatch patch p2)) =
          p :: ps.filter (fun p2 => decide (inPatch patch p2)) := by
        simp [List.filter_cons, h]
      simp only [List.foldl_cons, if_pos h]
      rw [ih, hf1, hf2, List.map_cons, List.prod_cons, Prod.mk.injEq]
      exact ⟨rfl, by ring⟩
    · have hf1 : (p :: ps).filter (fun p2 => decide (¬ inPatch patch p2)) =
          p :: ps.filter (fun p2 => decide (¬ inPatch patch p2)) := by
        simp [List.filter_cons, h]
      have hf2 : (p :: ps).filter (fun p2 => decide (inPatch patch p2)) =
          ps.filter (fun p2 => decide (inPatch patch p2)) := by
        simp [List.filter_cons, h]
      simp only [List.foldl_cons, if_neg h]
      rw [ih, hf1, hf2, Prod.mk.injEq]
      exact ⟨by simp, rfl⟩

lemma remove_particles_eq (t : ℤ) (patch : bbox_t) (ps : List particle_t)
    (pc : ℤ) (Qgrid : List ℝ) (g : ℤ) :
    remove_particles t patch ps pc Qgrid g =
      (ps.filter (fun p => decide (¬ inPatch patch p)),
       pc * ((ps.filter (fun p => decide (inPatch patch p))).map
         (fun p => verifyParticle p t Qgrid g)).prod) := by
  unfold remove_particles
  rw [remove_particles_foldl]
  simp

lemma length_filter_not_add (patch : bbox_t) (l : List particle_t) :
    (l.filter (fun p => decide (¬ inPatch patch p))).length +
      (l.filter (fun p => decide (inPatch patch p))).length = l.length := by
  induction l with
  | nil => rfl
  | cons a l ih =>
    by_cases h : inPatch patch a
    · have hf1 : (a :: l).filter (fun p => decide (¬ inPatch patch p)) =
          l.filter (fun p => decide (¬ inPatch patch p)) := by
        simp [List.filter_cons, h]
      have hf2 : (a :: l).filter (fun p => decide (inPatch patch p)) =
          a :: l.filter (fun p => decide (inPatch patch p)) := by
        simp [List.filter_cons, h]
      rw [hf1, hf2]
      simp only [List.length_cons]
      omega
    · have hf1 : (a :: l).filter (fun p => decide (¬ inPatch patch p)) =
          a :: l.filter (fun p => decide (¬ inPatch patch p)) := by
        simp [List.filter_cons, h]
      have hf2 : (a :: l).filter (fun p => decide (inPatch patch p)) =
          l.filter (fun p => decide (inPatch patch p)) := by
        simp [List.filter_cons, h]
      rw [hf1, hf2]
      simp only [List.length_cons]
      omega

/-- C5 claim theorem.  For a valid patch, remove_particles removes a
particle exactly when it lies strictly inside the patch (boundary
particles are retained), multiplies each removed particle's
verifyParticle result into the running flag, compacts survivors in
their original relative order (the filter of the input list), and the
survivor count plus the removed count equals the input count. -/
theorem C5_remove_particles (t : ℤ) (patch : bbox_t) (ps : List particle_t)
    (pc : ℤ) (Qgrid : List ℝ) (g : ℤ)
    (hv1 : patch.xleft < patch.xright) (hv2 : patch.ybottom < patch.ytop) :
    (remove_particles t patch ps pc Qgrid g).1 =
      ps.filter (fun p => decide (¬ inPatch patch p)) ∧
    (remove_particles t patch ps pc Qgrid g).1.length +
      (ps.filter (fun p => decide (inPatch patch p))).length = ps.length ∧
    (remove_particles t patch ps pc Qgrid g).2 =
      pc * ((ps.filter (fun p => decide (inPatch patch p))).map
        (fun p => verifyParticle p t Qgrid g)).prod ∧
    (∀ p2 ∈ (remove_particles t patch ps pc Qgrid g).1, ¬ inPatch patch p2) ∧
    (∀ p2 ∈ ps, ¬ inPatch patch p2 → p2 ∈ (remove_particles t patch ps pc Qgrid g).1) := by
  have he := remove_particles_eq t patch ps pc Qgrid g
  refine ⟨?_, ?_, ?_, ?_, ?_⟩
  · rw [he]
  · rw [he]
    exact length_filter_not_add patch ps
  · rw [he]
  · intro p2 hp2
    rw [he] at hp2
    simp only [List.mem_filter, decide_eq_true_eq] at hp2
    exact hp2.2
  · intro p2 hp2 hnp
    rw [he]
    simp only [List.mem_filter, decide_eq_true_eq]
    exact ⟨hp2, hnp⟩

/-- Witness for C5 on a one-particle population with the unit patch. -/
theorem C5_remove_particles_witness :
    ((remove_particles 0 ⟨0, 1, 0, 1⟩ [rawParticle (1/2) (1/2)] 1
        (initializeGrid 3) 3).1 =
      [rawParticle (1/2) (1/2)].filter
        (fun p => decide (¬ inPatch ⟨0, 1, 0, 1⟩ p)) ∧
    (remove_particles 0 ⟨0, 1, 0, 1⟩ [rawParticle (1/2) (1/2)] 1
        (initializeGrid 3) 3).1.length +
      ([rawParticle (1/2) (1/2)].filter
        (fun p => decide (inPatch ⟨0, 1, 0, 1⟩ p))).length = 1 ∧
    (remove_particles 0 ⟨0, 1, 0, 1⟩ [rawParticle (1/2) (1/2)] 1
        (initializeGrid 3) 3).2 =
      1 * (([rawParticle (1/2) (1/2)].filter
        (fun p => decide (inPatch ⟨0, 1, 0, 1⟩ p))).map
        (fun p => verifyParticle p 0 (initializeGrid 3) 3)).prod ∧
    (∀ p2 ∈ (remove_particles 0 ⟨0, 1, 0, 1⟩ [rawParticle (1/2) (1/2)] 1
        (initializeGrid 3) 3).1, ¬ inPatch ⟨0, 1, 0, 1⟩ p2) ∧
    (∀ p2 ∈ [rawParticle (1/2) (1/2)], ¬ inPatch ⟨0, 1, 0, 1⟩ p2 →
      p2 ∈ (remove_particles 0 ⟨0, 1, 0, 1⟩ [rawParticle (1/2) (1/2)] 1
        (initializeGrid 3) 3).1)) :=
  C5_remove_particles 0 ⟨0, 1, 0, 1⟩ [rawParticle (1/2) (1/2)] 1
    (initializeGrid 3) 3 (by norm_num) (by norm_num)

/-- C7 claim theorem.  Applying remove_particles a second time with
the same patch and no intervening move or injection is a no-op: no
particle is removed, the surviving list and the correctness flag are
returned unchanged (at any second removal timestep). -/
theorem C7_remove_idempotent (t t2 : ℤ) (patch : bbox_t) (ps : List particle_t)
    (pc : ℤ) (Qgrid : List ℝ) (g : ℤ) :
    remove_particles t2 patch (remove_particles t patch ps pc Qgrid g).1
      (remove_particles t patch ps pc Qgrid g).2 Qgrid g
    = remove_particles t patch ps pc Qgrid g := by
  have he := remove_particles_eq t patch ps pc Qgrid g
  have hfst : (remove_particles t patch ps pc Qgrid g).1 =
      ps.filter (fun p => decide (¬ inPatch patch p)) := by
    rw [he]
  have hsnd : (remove_particles t patch ps pc Qgrid g).2 =
      pc * ((ps.filter (fun p => decide (inPatch patch p))).map
        (fun p => verifyParticle p t Qgrid g)).prod := by
    rw [he]
  rw [remove_particles_eq t2 patch _ _ Qgrid g, hfst, hsnd, he]
  have hff : (ps.filter (fun p => decide (¬ inPatch patch p))).filter
      (fun p => decide (¬ inPatch patch p)) =
      ps.filter (fun p => decide (¬ inPatch patch p)) := by
    apply List.filter_eq_self.mpr
    intro a ha
    simp only [List.mem_filter] at ha
    exact ha.2
  have hfe : (ps.filter (fun p => decide (¬ inPatch patch p))).filter
      (fun p => decide (inPatch patch p)) = [] := by
    apply List.filter_eq_nil_iff.mpr
    intro a ha
    simp only [List.mem_filter, decide_eq_true_eq] at ha ⊢
    exact ha.2
  rw [hff, hfe, Prod.mk.injEq]
  refine ⟨rfl, ?_⟩
  simp

lemma length_flatMap_const_len {α : Type} (n : ℕ) (f : ℕ → List α) (m : ℕ)
    (h : ∀ i, (f i).length = m) :
    ((List.range n).flatMap f).length = n * m := by
  rw [List.length_flatMap]
  have hmap : List.map (List.length ∘ f) (List.range n) = List.replicate n m := by
    have hfun : (List.length ∘ f) = fun _i => m := funext h
    rw [hfun, List.map_const']
    simp
  rw [hmap, List.sum_replicate, smul_eq_mul]

/-- C6 claim theorem.  For a valid patch and non-negative
particles_per_cell: inject_particles grows the population by exactly
cells_in_patch times particles_per_cell; every injected particle sits
at offset (REL_X, REL_Y) = (0.5, 0.5) inside a patch cell, so its
position lies within the patch; and the injection step of main
completes the new slice with finish_distribution at drift parameters
k = 0 and m = 0 (whatever the run's configured k and m), which also
stamps the injection timestep. -/
theorem C6_inject_particles (t : ℤ) (patch : bbox_t) (ppc : ℤ) (ps : List particle_t)
    (hv1 : patch.xleft < patch.xright) (hv2 : patch.ybottom < patch.ytop)
    (hppc : 0 ≤ ppc) :
    ((inject_particles t patch ppc ps).length : ℤ) =
      ps.length + (patch.xright - patch.xleft) * (patch.ytop - patch.ybottom) * ppc ∧
    (∀ p2 ∈ (inject_particles t patch ppc ps).drop ps.length,
      (∃ cx cy : ℤ, patch.xleft ≤ cx ∧ cx < patch.xright ∧
        patch.ybottom ≤ cy ∧ cy < patch.ytop ∧
        p2.x = (cx : ℝ) + REL_X ∧ p2.y = (cy : ℝ) + REL_Y) ∧
      (patch.xleft : ℝ) ≤ p2.x ∧ p2.x < (patch.xright : ℝ) ∧
      (patch.ybottom : ℝ) ≤ p2.y ∧ p2.y < (patch.ytop : ℝ)) ∧
    (∀ p2 ∈ (injectionStep t patch ppc ps).drop ps.length,
      p2.k = 0 ∧ p2.m = 0 ∧ p2.initTimestamp = t) := by
  have h1 : ((patch.ytop - patch.ybottom).toNat : ℤ) = patch.ytop - patch.ybottom :=
    Int.toNat_of_nonneg (by omega)
  have h2 : ((patch.xright - patch.xleft).toNat : ℤ) = patch.xright - patch.xleft :=
    Int.toNat_of_nonneg (by omega)
  have h3 : (ppc.toNat : ℤ) = ppc := Int.toNat_of_nonneg hppc
  have hlen : ((List.range (patch.ytop - patch.ybottom).toNat).flatMap fun yi =>
      (List.range (patch.xright - patch.xleft).toNat).flatMap fun _xi =>
        List.replicate ppc.toNat
          (rawParticle (((patch.xleft + (_xi : ℤ)) : ℤ) + REL_X)
                       (((patch.ybottom + (yi : ℤ)) : ℤ) + REL_Y))).length
      = (patch.ytop - patch.ybottom).toNat *
          ((patch.xright - patch.xleft).toNat * ppc.toNat) := by
    apply length_flatMap_const_len
    intro i
    apply length_flatMap_const_len
    intro i2
    exact List.length_replicate _ _
  refine ⟨?_, ?_, ?_⟩
  · unfold inject_particles
    rw [List.length_append, hlen]
    push_cast [h1, h2, h3]
    ring
  · intro p2 hp2
    unfold inject_particles at hp2
    rw [List.drop_left] at hp2
    simp only [List.mem_flatMap, List.mem_range] at hp2
    obtain ⟨yi, hyi, hp2a⟩ := hp2
    obtain ⟨xi, hxi, hp2b⟩ := hp2a
    have hval := List.eq_of_mem_replicate hp2b
    subst hval
    have hxiz : (xi : ℤ) < patch.xright - patch.xleft := by omega
    have hyiz : (yi : ℤ) < patch.ytop - patch.ybottom := by omega
    have hxir : ((xi : ℤ) : ℝ) ≤ ((patch.xright : ℤ) : ℝ) - ((patch.xleft : ℤ) : ℝ) - 1 := by
      have : (xi : ℤ) ≤ patch.xright - patch.xleft - 1 := by omega
      exact_mod_cast this
    have hyir : ((yi : ℤ) : ℝ) ≤ ((patch.ytop : ℤ) : ℝ) - ((patch.ybottom : ℤ) : ℝ) - 1 := by
      have : (yi : ℤ) ≤ patch.ytop - patch.ybottom - 1 := by omega
      exact_mod_cast this
    have hxinn : (0:ℝ) ≤ ((xi : ℤ) : ℝ) := by positivity
    have hyinn : (0:ℝ) ≤ ((yi : ℤ) : ℝ) := by positivity
    refine ⟨⟨patch.xleft + (xi : ℤ), patch.ybottom + (yi : ℤ),
      by omega, by omega, by omega, by omega, rfl, rfl⟩, ?_, ?_, ?_, ?_⟩
    · show (patch.xleft : ℝ) ≤ ((patch.xleft + (xi : ℤ) : ℤ) : ℝ) + REL_X
      unfold REL_X
      push_cast
      linarith
    · show ((patch.xleft + (xi : ℤ) : ℤ) : ℝ) + REL_X < (patch.xright : ℝ)
      unfold REL_X
      push_cast
      push_cast at hxir
      linarith
    · show (patch.ybottom : ℝ) ≤ ((patch.ybottom + (yi : ℤ) : ℤ) : ℝ) + REL_Y
      unfold REL_Y
      push_cast
      linarith
    · show ((patch.ybottom + (yi : ℤ) : ℤ) : ℝ) + REL_Y < (patch.ytop : ℝ)
      unfold REL_Y
      push_cast
      push_cast at hyir
      linarith
  · intro p2 hp2
    have hstep : injectionStep t patch ppc ps =
        ps ++ finish_distribution t 0 0
          ((List.range (patch.ytop - patch.ybottom).toNat).flatMap fun yi =>
            (List.range (patch.xright - patch.xleft).toNat).flatMap fun _xi =>
              List.replicate ppc.toNat
                (rawParticle (((patch.xleft + (_xi : ℤ)) : ℤ) + REL_X)
                             (((patch.ybottom + (yi : ℤ)) : ℤ) + REL_Y))) := by
      simp only [injectionStep, inject_particles]
      rw [List.take_left, List.drop_left]
    rw [hstep, List.drop_left] at hp2
    unfold finish_distribution at hp2
    simp only [List.mem_map] at hp2
    obtain ⟨q2, _, hq2⟩ := hp2
    rw [← hq2]
    exact ⟨rfl, rfl, rfl⟩

/-- Witness for C6 on the unit patch with one particle per cell. -/
theorem C6_inject_particles_witness :
    (((inject_particles 0 ⟨0, 1, 0, 1⟩ 1 []).length : ℤ) =
      ([] : List particle_t).length + (1 - 0) * (1 - 0) * 1 ∧
    (∀ p2 ∈ (inject_particles 0 ⟨0, 1, 0, 1⟩ 1 []).drop
        ([] : List particle_t).length,
      (∃ cx cy : ℤ, (0:ℤ) ≤ cx ∧ cx < 1 ∧ (0:ℤ) ≤ cy ∧ cy < 1 ∧
        p2.x = (cx : ℝ) + REL_X ∧ p2.y = (cy : ℝ) + REL_Y) ∧
      ((0:ℤ) : ℝ) ≤ p2.x ∧ p2.x < ((1:ℤ) : ℝ) ∧
      ((0:ℤ) : ℝ) ≤ p2.y ∧ p2.y < ((1:ℤ) : ℝ)) ∧
    (∀ p2 ∈ (injectionStep 0 ⟨0, 1, 0, 1⟩ 1 []).drop
        ([] : List particle_t).length,
      p2.k = 0 ∧ p2.m = 0 ∧ p2.initTimestamp = 0)) :=
  C6_inject_particles 0 ⟨0, 1, 0, 1⟩ 1 [] (by norm_num) (by norm_num) (by norm_num)

/-- C8 claim theorem.  For even L >= 2 and g = L+1, the grid built by
initializeGrid stores +Q at integer coordinate (x,y) when x is even
and -Q when x is odd, for every 0 <= x < g and 0 <= y < g,
independently of y. -/
theorem C8_grid_charge (L x y : ℤ) (hL2 : 2 ≤ L) (hLev : L % 2 = 0)
    (hx0 : 0 ≤ x) (hx : x < L + 1) (hy0 : 0 ≤ y) (hy : y < L + 1) :
    QG (initializeGrid (L + 1)) (L + 1) y x =
      if x % 2 = 0 then Qcharge else -Qcharge := by
  rw [QG_initializeGrid (by omega) hy0 hy hx0 hx]
  rfl

/-- Witness for C8: the odd column 1 of the 3x3 grid holds -Q at row 2. -/
theorem C8_grid_charge_witness :
    QG (initializeGrid (2 + 1)) (2 + 1) 2 1 =
      if (1 : ℤ) % 2 = 0 then Qcharge else -Qcharge :=
  C8_grid_charge 2 1 2 (by norm_num) (by norm_num) (by norm_num) (by norm_num)
    (by norm_num) (by norm_num)

/-- C9 claim theorem.  A run whose configuration passes the validation
section reaches the simulation and main returns 0, whatever the
computed correctness flags; a nonzero exit status can only arise from
a failing validation check (malformed configuration; allocation
failure is outside the embedding). -/
theorem C9_exit_status (a : Args) (ps0 : List particle_t) :
    (configExit a = none → mainExit a ps0 = 0) ∧
    (mainExit a ps0 ≠ 0 → ∃ e, configExit a = some e ∧ e ≠ 0) := by
  constructor
  · intro h
    unfold mainExit
    rw [h]
  · intro hne
    unfold mainExit at hne
    cases h : configExit a with
    | none =>
      rw [h] at hne
      exact absurd rfl hne
    | some e =>
      rw [h] at hne
      exact ⟨e, rfl, hne⟩

/-- Witness for C9: a valid sinusoidal configuration exits with 0. -/
theorem C9_exit_status_witness :
    mainExit ⟨12, 1, 2, 1, 0, 0, InitMode.sinusoidal, PopChange.noChange⟩ [] = 0 :=
  (C9_exit_status ⟨12, 1, 2, 1, 0, 0, InitMode.sinusoidal, PopChange.noChange⟩ []).1
    (by decide)

lemma geometricA_pos (n g : ℤ) (rho : ℝ)
    (hn : 1 ≤ n) (hg : 3 ≤ g) (hrho : 0 < rho) (hrho1 : rho ≠ 1) :
    0 < geometricA n g rho := by
  unfold geometricA
  have hNne : (g - 1).toNat ≠ 0 := by omega
  have hnr : (0:ℝ) < (n : ℤ) := by exact_mod_cast hn
  rcases lt_or_gt_of_ne hrho1 with hlt | hgt
  · have hp : rho ^ (g - 1).toNat < 1 := pow_lt_one₀ hrho.le hlt hNne
    exact mul_pos hnr (div_pos (by linarith) (by linarith))
  · have hp : 1 < rho ^ (g - 1).toNat := one_lt_pow₀ hgt hNne
    exact mul_pos hnr (div_pos_iff.mpr (Or.inr ⟨by linarith, by linarith⟩))

lemma geom_key (n : ℤ) (rho : ℝ) (N : ℕ) (hrho1 : rho ≠ 1) (hpne : rho ^ N ≠ 1) :
    (n : ℝ) * ((1 - rho) / (1 - rho ^ N)) * ∑ i ∈ Finset.range N, rho ^ i
      = ((n : ℤ) : ℝ) := by
  rw [geom_sum_eq hrho1]
  have hne1 : (1:ℝ) - rho ^ N ≠ 0 := sub_ne_zero.mpr (Ne.symm hpne)
  have hne2 : rho - 1 ≠ 0 := sub_ne_zero.mpr hrho1
  field_simp
  ring

lemma geometric_floor_sum_le (n g : ℤ) (rho : ℝ)
    (hn : 1 ≤ n) (hg : 3 ≤ g) (hrho : 0 < rho) (hrho1 : rho ≠ 1) :
    ∑ i ∈ Finset.range (g - 1).toNat, ⌊geometricA n g rho * rho ^ i⌋ ≤ n := by
  have hNne : (g - 1).toNat ≠ 0 := by omega
  have hpne : rho ^ (g - 1).toNat ≠ 1 := by
    rcases lt_or_gt_of_ne hrho1 with hlt | hgt
    · exact (pow_lt_one₀ hrho.le hlt hNne).ne
    · exact (one_lt_pow₀ hgt hNne).ne'
  have key : geometricA n g rho * ∑ i ∈ Finset.range (g - 1).toNat, rho ^ i
      = ((n : ℤ) : ℝ) := by
    unfold geometricA
    exact geom_key n rho (g - 1).toNat hrho1 hpne
  have hle : ((∑ i ∈ Finset.range (g - 1).toNat,
      ⌊geometricA n g rho * rho ^ i⌋ : ℤ) : ℝ) ≤ ((n : ℤ) : ℝ) := by
    push_cast
    calc (∑ i ∈ Finset.range (g - 1).toNat, (⌊geometricA n g rho * rho ^ i⌋ : ℝ))
        ≤ ∑ i ∈ Finset.range (g - 1).toNat, geometricA n g rho * rho ^ i :=
          Finset.sum_le_sum fun i _ => Int.floor_le _
      _ = geometricA n g rho * ∑ i ∈ Finset.range (g - 1).toNat, rho ^ i :=
          (Finset.mul_sum _ _ _).symm
      _ = ((n : ℤ) : ℝ) := key
  exact_mod_cast hle

/-- C10 claim theorem.  The per-column counts floor(A*rho^x) of
initializeParticlesGeometric sum to at most n, so the column loops
never write past the n allocated slots, and with the shortfall loop
the function initializes exactly n particles. -/
theorem C10_geometric_init (n g : ℤ) (rho : ℝ) (lcg : ℕ → ℝ)
    (hn : 1 ≤ n) (hg : 3 ≤ g) (hrho : 0 < rho) (hrho1 : rho ≠ 1) :
    (geometricColumnXs n g rho).length ≤ n.toNat ∧
    (initializeParticlesGeometric n g rho lcg).length = n.toNat := by
  have hA := geometricA_pos n g rho hn hg hrho hrho1
  have hlen : (geometricColumnXs n g rho).length =
      ∑ i ∈ Finset.range (g - 1).toNat, (⌊geometricA n g rho * rho ^ i⌋).toNat := by
    unfold geometricColumnXs
    rw [List.length_flatMap]
    have hfun : (List.length ∘ fun (x : ℕ) =>
        List.replicate (⌊geometricA n g rho * rho ^ x⌋).toNat ((x : ℤ))) =
        fun (x : ℕ) => (⌊geometricA n g rho * rho ^ x⌋).toNat :=
      funext fun x => List.length_replicate _ _
    rw [hfun]
    rfl
  have hcast : ((∑ i ∈ Finset.range (g - 1).toNat,
      (⌊geometricA n g rho * rho ^ i⌋).toNat : ℕ) : ℤ) =
      ∑ i ∈ Finset.range (g - 1).toNat, ⌊geometricA n g rho * rho ^ i⌋ := by
    push_cast
    apply Finset.sum_congr rfl
    intro i _
    exact Int.toNat_of_nonneg
      (Int.floor_nonneg.mpr (le_of_lt (mul_pos hA (pow_pos hrho i))))
  have hsum := geometric_floor_sum_le n g rho hn hg hrho hrho1
  have hle : (geometricColumnXs n g rho).length ≤ n.toNat := by
    rw [hlen]
    omega
  refine ⟨hle, ?_⟩
  simp only [initializeParticlesGeometric]
  simp only [List.length_append, List.length_map, List.enum_length, List.length_range]
  omega

/-- Witness for C10: one particle, g = 3, attenuation 1/2. -/
theorem C10_geometric_init_witness :
    (geometricColumnXs 1 3 (1/2)).length ≤ (1:ℤ).toNat ∧
    (initializeParticlesGeometric 1 3 (1/2) (fun _i => 0)).length = (1:ℤ).toNat :=
  C10_geometric_init 1 3 (1/2) (fun _i => 0) (by norm_num) (by norm_num)
    (by norm_num) (by norm_num)
